import Mathlib

/-!
Verification development for the i915 perf-config code generators of
intel-gpu-tools (src/lib/i915/perf-configs/codegen.py,
perf-equations-codegen.py, perf-metricset-codegen.py).

The Python sources are shallowly embedded below.  Equation strings are kept
as `String`, but the character-level helpers (tokenising on spaces, the
leading-dollar test, numeric-literal parsing) are re-implemented over
`String.data` so that the kernel can evaluate them on concrete inputs.
-/

/-! ## String helpers

`splitTokens` models Python `str.split()` (split on whitespace, dropping
empty fragments); equations in the metric XML files separate tokens with
single spaces, so splitting on the space character is the faithful model.
`startsDollar` models `token[0] == "$"` (`False` on the empty string, which
`str.split()` never produces).  `tokenToNat` parses a digits-only token the
way the generated C would read an unsigned decimal literal. -/

def splitAux : List Char → List Char → List String
  | [], acc => [String.mk acc.reverse]
  | c :: cs, acc =>
    if c = ' ' then String.mk acc.reverse :: splitAux cs []
    else splitAux cs (c :: acc)

def splitTokens (s : String) : List String :=
  (splitAux s.data []).filter (· ≠ "")

def startsDollar (s : String) : Bool :=
  match s.data with
  | [] => false
  | c :: _ => c = '$'

def digitsVal : List Char → Nat → Nat
  | [], acc => acc
  | c :: cs, acc => digitsVal cs (acc * 10 + (c.toNat - '0'.toNat))

def tokenToNat (s : String) : Option Nat :=
  if s.data ≠ [] ∧ s.data.all (·.isDigit) then some (digitsVal s.data 0) else none

/-- A token is a numeric literal: a non-empty digit string.  The second
conjunct records the character-level consequence (a digit string does not
begin with a dollar sign) that the proofs below use. -/
def isNumericLiteral (s : String) : Bool :=
  (tokenToNat s).isSome && !(startsDollar s)

/-! ## The operator table `Gen.ops` (codegen.py lines 137-153)

Every key of `self.ops` together with its operand count.  `LSHFT` and
`RSHFT` stand for the `"<<"` and `">>"` keys. -/

inductive Op
  | FADD | FDIV | FMAX | FMUL | FSUB | READ | READ_REG
  | UADD | UDIV | UMUL | USUB | UMIN | LSHFT | RSHFT | AND
deriving DecidableEq, Repr

def opOfToken (t : String) : Option Op :=
  if t = "FADD" then some .FADD
  else if t = "FDIV" then some .FDIV
  else if t = "FMAX" then some .FMAX
  else if t = "FMUL" then some .FMUL
  else if t = "FSUB" then some .FSUB
  else if t = "READ" then some .READ
  else if t = "READ_REG" then some .READ_REG
  else if t = "UADD" then some .UADD
  else if t = "UDIV" then some .UDIV
  else if t = "UMUL" then some .UMUL
  else if t = "USUB" then some .USUB
  else if t = "UMIN" then some .UMIN
  else if t = "<<" then some .LSHFT
  else if t = ">>" then some .RSHFT
  else if t = "AND" then some .AND
  else none

def Op.argc : Op → Nat
  | .READ_REG => 1
  | _ => 2

/-! ## The hardware-variable table `Gen.hw_vars` (codegen.py lines 162-175)

Keys and their `'c'` replacement texts (the `'desc'` entry of the first row
plays no part in any computation and is dropped). -/

def hw_vars : List (String × String) :=
  [("$EuCoresTotalCount", "perf->devinfo.n_eus"),
   ("$EuSlicesTotalCount", "perf->devinfo.n_eu_slices"),
   ("$EuSubslicesTotalCount", "perf->devinfo.n_eu_sub_slices"),
   ("$EuThreadsCount", "perf->devinfo.eu_threads_count"),
   ("$SliceMask", "perf->devinfo.slice_mask"),
   ("$DualSubsliceMask", "perf->devinfo.subslice_mask"),
   ("$SubsliceMask", "perf->devinfo.subslice_mask"),
   ("$GpuTimestampFrequency", "perf->devinfo.timestamp_frequency"),
   ("$GpuMinFrequency", "perf->devinfo.gt_min_freq"),
   ("$GpuMaxFrequency", "perf->devinfo.gt_max_freq"),
   ("$SkuRevisionId", "perf->devinfo.revision"),
   ("$QueryMode", "perf->devinfo.query_mode")]

def lookupHw (t : String) : Option String :=
  (hw_vars.find? (fun p => p.1 == t)).map (·.2)

/-! ## The Set model used by the equation compiler

`Set.__init__` (codegen.py lines 81-101) stores, for each `<counter>`
element, the pair key/value `"$" + symbol_name ↦ counter` in `counter_vars`
and `symbol_name ↦ counter.read_sym` in `read_funcs`.  The compiler looks a
`$`-token up in `counter_vars` and then reads `read_funcs[operand[1:]]`,
which by that construction is exactly the read symbol paired with the key.
`PerfSet.counter_vars` therefore carries `("$" ++ symbol_name, read_sym)`
pairs. -/

structure PerfSet where
  name : String
  counter_vars : List (String × String)

def lookupCounterVar (s : PerfSet) (t : String) : Option String :=
  (s.counter_vars.find? (fun p => p.1 == t)).map (·.2)

/-- The invariant `Set.__init__` establishes: every `counter_vars` key is
`"$" + symbol_name`, hence begins with a dollar sign. -/
def PerfSet.WfKeys (s : PerfSet) : Prop :=
  ∀ p ∈ s.counter_vars, startsDollar p.1 = true

/-! ## Values the compiler manipulates

The Python compiler keeps a stack of strings: pushed input tokens and the
generated temporary names `"tmp{k}"` (codegen.py lines 270-295).  A
generated name is never a key of `ops`, `hw_vars` or `counter_vars` (those
keys start with an upper-case mnemonic character or `$`), so we record the
provenance in the type: `StackVal.tmp k` stands for the string `"tmp" ++
toString k`, and the membership tests that the source performs on it
(always negative) are compiled away. -/

inductive StackVal
  | raw (t : String)
  | tmp (k : Nat)
deriving DecidableEq, Repr

/-- A resolved operand: an unchanged input token, a temporary, or
substituted C text (a hardware-variable expression or a generated
`read_sym(perf, metric_set, accumulator)` call). -/
inductive Operand
  | tok (t : String)
  | tmp (k : Nat)
  | ctext (t : String)
deriving DecidableEq, Repr

/-! ## Emitted statements

Each `self.c(...)` line of an emitter callback (codegen.py lines 177-247)
becomes one `Stmt`: a typed C declaration `ty tmp{id} = rhs;`.  The
right-hand sides transcribe the format strings of the callbacks. -/

inductive CType
  | uint64
  | double
deriving DecidableEq, Repr

inductive CExpr
  | opnd (o : Operand)
  | tmp (k : Nat)
  | lit (n : Nat)
  | add (a b : CExpr)
  | sub (a b : CExpr)
  | mul (a b : CExpr)
  | fdivE (a b : CExpr)
  | udivE (a b : CExpr)
  | cond (c t e : CExpr)
  | maxE (a b : CExpr)
  | minE (a b : CExpr)
  | shlE (a b : CExpr)
  | shrE (a b : CExpr)
  | bandE (a b : CExpr)
  | accRead (ty : String) (off : CExpr)
deriving DecidableEq, Repr

structure Stmt where
  ty : CType
  id : Nat
  rhs : CExpr
deriving DecidableEq, Repr

/-- The text of an operand, as spliced into the C output (used by
`emit_read` for `args[1].lower()`; digits are unchanged by `lower`). -/
def Operand.text : Operand → String
  | .tok t => t
  | .tmp k => "tmp" ++ toString k
  | .ctext t => t

/-! ## The emitter callbacks (codegen.py lines 177-247)

Each case transcribes one Python `emit_*` method: the statements it prints,
in order, and the returned next free temporary id.  `args` is in pop order,
so `args[0]` is the most recently pushed (right-hand) operand. -/

def emitOp (op : Op) (tmp_id : Nat) (args : List Operand) : List Stmt × Nat :=
  let a0 := CExpr.opnd (args.getD 0 (.tok ""))
  let a1 := CExpr.opnd (args.getD 1 (.tok ""))
  match op with
  | .FADD => ([⟨.double, tmp_id, .add a1 a0⟩], tmp_id + 1)
  | .FDIV => ([⟨.double, tmp_id, a1⟩,
               ⟨.double, tmp_id + 1, a0⟩,
               ⟨.double, tmp_id + 2,
                 .cond (.tmp (tmp_id + 1)) (.fdivE (.tmp tmp_id) (.tmp (tmp_id + 1))) (.lit 0)⟩],
              tmp_id + 3)
  | .FMAX => ([⟨.double, tmp_id, a1⟩,
               ⟨.double, tmp_id + 1, a0⟩,
               ⟨.double, tmp_id + 2, .maxE (.tmp tmp_id) (.tmp (tmp_id + 1))⟩],
              tmp_id + 3)
  | .FMUL => ([⟨.double, tmp_id, .mul a1 a0⟩], tmp_id + 1)
  | .FSUB => ([⟨.double, tmp_id, .sub a1 a0⟩], tmp_id + 1)
  | .READ => ([⟨.uint64, tmp_id,
                .accRead (String.mk ((args.getD 1 (.tok "")).text.data.map Char.toLower)) a0⟩],
              tmp_id + 1)
  | .READ_REG => ([⟨.uint64, tmp_id, .lit 0⟩], tmp_id + 1)
  | .UADD => ([⟨.uint64, tmp_id, .add a1 a0⟩], tmp_id + 1)
  | .UDIV => ([⟨.uint64, tmp_id, a1⟩,
               ⟨.uint64, tmp_id + 1, a0⟩,
               ⟨.uint64, tmp_id + 2,
                 .cond (.tmp (tmp_id + 1)) (.udivE (.tmp tmp_id) (.tmp (tmp_id + 1))) (.lit 0)⟩],
              tmp_id + 3)
  | .UMUL => ([⟨.uint64, tmp_id, .mul a1 a0⟩], tmp_id + 1)
  | .USUB => ([⟨.uint64, tmp_id, .sub a1 a0⟩], tmp_id + 1)
  | .UMIN => ([⟨.uint64, tmp_id, .minE a1 a0⟩], tmp_id + 1)
  | .LSHFT => ([⟨.uint64, tmp_id, .shlE a1 a0⟩], tmp_id + 1)
  | .RSHFT => ([⟨.uint64, tmp_id, .shrE a1 a0⟩], tmp_id + 1)
  | .AND => ([⟨.uint64, tmp_id, .bandE a1 a0⟩], tmp_id + 1)

/-! ## Errors

`CgErr.underflow` models the Python `IndexError` raised by `stack.pop()` on
an empty list; the other two constructors carry the exact message text of
the two `raise Exception(...)` statements of `output_rpn_equation_code` and
`splice_rpn_expression`. -/

inductive CgErr
  | underflow
  | unresolved (msg : String)
  | malformed (msg : String)
deriving DecidableEq, Repr

/-! ## Operand resolution (codegen.py lines 281-290) -/

def resolveOperand (s : PerfSet) (counterName equation : String) (v : StackVal) :
    Except CgErr Operand :=
  match v with
  | .tmp k => .ok (.tmp k)
  | .raw t =>
    if startsDollar t then
      match lookupHw t with
      | some c => .ok (.ctext c)
      | none =>
        match lookupCounterVar s t with
        | some rsym => .ok (.ctext (rsym ++ "(perf, metric_set, accumulator)"))
        | none => .error (.unresolved ("Failed to resolve variable " ++ t ++
            " in equation " ++ equation ++ " for " ++ s.name ++ " :: " ++ counterName))
    else .ok (.tok t)

/-- Pop `n` operands, resolving each; the first popped operand lands at
index 0 of the returned argument list (Python `args.append(operand)` inside
`for i in range(0, argc)`). -/
def popArgs (s : PerfSet) (counterName equation : String) :
    Nat → List StackVal → List Operand → Except CgErr (List Operand × List StackVal)
  | 0, stack, args => .ok (args, stack)
  | _ + 1, [], _ => .error .underflow
  | n + 1, v :: stack, args => do
    let o ← resolveOperand s counterName equation v
    popArgs s counterName equation n stack (args ++ [o])

/-! ## The scan loop of `output_rpn_equation_code` (codegen.py lines 274-295)

The source pushes each token and then runs
`while stack and stack[-1] in self.ops:`.  Only a just-pushed input token
can be in `ops` — the value pushed by a reduction is a `"tmp{k}"` name,
never an `ops` key — so the while body runs exactly once when the token is
an operator mnemonic and zero times otherwise, which is what the model
does. -/

structure CompSt where
  stack : List StackVal
  tmp_id : Nat
  out : List Stmt

def rpnStep (s : PerfSet) (counterName equation : String) (st : CompSt) (token : String) :
    Except CgErr CompSt :=
  match opOfToken token with
  | none => .ok { st with stack := .raw token :: st.stack }
  | some op => do
    let (args, stack') ← popArgs s counterName equation op.argc st.stack []
    let (stmts, tid') := emitOp op st.tmp_id args
    .ok ⟨.tmp (tid' - 1) :: stack', tid', st.out ++ stmts⟩

def scanTokens (s : PerfSet) (counterName equation : String) (tokens : List String) :
    Except CgErr CompSt :=
  tokens.foldlM (rpnStep s counterName equation) ⟨[], 0, []⟩

/-- The final hardware-variable / counter-reference substitution applied to
the surviving stack value (codegen.py lines 302-307).  The membership tests
are string tests in the source; a generated `"tmp{k}"` name matches no
`hw_vars` or `counter_vars` key (all start with `$`), so `StackVal.tmp`
passes through. -/
def finalSubst (s : PerfSet) (v : StackVal) : Operand :=
  match v with
  | .tmp k => .tmp k
  | .raw t =>
    match lookupHw t with
    | some c => .ctext c
    | none =>
      match lookupCounterVar s t with
      | some rsym => .ctext (rsym ++ "(perf, metric_set, accumulator)")
      | none => .tok t

/-- `Gen.output_rpn_equation_code` (codegen.py lines 267-309).  Returns the
emitted statement list and the operand of the final `return` statement; the
leading `/* RPN equation */` comment line is not part of the model. -/
def output_rpn_equation_code (s : PerfSet) (counterName equation : String) :
    Except CgErr (List Stmt × Operand) := do
  let st ← scanTokens s counterName equation (splitTokens equation)
  if st.stack.length ≠ 1 then
    .error (.malformed ("Spurious empty rpn code for " ++ s.name ++ " :: " ++
      counterName ++ ".\nThis is probably due to some unhandled RPN function, in the equation \"" ++
      equation ++ "\""))
  else
    .ok (st.out, finalSubst s (st.stack.headD (.raw "")))

/-! ## `Gen.splice_rpn_expression` (codegen.py lines 311-339)

The expression splicer works purely on strings: the stack holds strings and
every reduction pushes spliced subexpression text.  A spliced result always
contains a space (`" & "`, `" && "`, `" < "`, `" >= "`), so it is never a
key of `exp_ops` and the while body again runs at most once per token. -/

inductive ExpOp
  | EAND | UGTE | ULT | LAND
deriving DecidableEq, Repr

def expOpOfToken (t : String) : Option ExpOp :=
  if t = "AND" then some .EAND
  else if t = "UGTE" then some .UGTE
  else if t = "ULT" then some .ULT
  else if t = "&&" then some .LAND
  else none

def brkt (subexp : String) : String :=
  if subexp.data.contains ' ' then "(" ++ subexp ++ ")" else subexp

def spliceCallback (op : ExpOp) (args : List String) : String :=
  let a0 := args.getD 0 ""
  let a1 := args.getD 1 ""
  match op with
  | .EAND => brkt a1 ++ " & " ++ brkt a0
  | .LAND => brkt a1 ++ " && " ++ brkt a0
  | .ULT => brkt a1 ++ " < " ++ brkt a0
  | .UGTE => brkt a1 ++ " >= " ++ brkt a0

/-- Operand resolution inside the splicer (codegen.py lines 322-327): only
hardware variables are legal `$`-operands; any other `$`-token — in
particular a counter reference — raises. -/
def spliceResolve (s : PerfSet) (counterName expression : String) (t : String) :
    Except CgErr String :=
  if startsDollar t then
    match lookupHw t with
    | some c => .ok c
    | none => .error (.unresolved ("Failed to resolve variable " ++ t ++
        " in expression " ++ expression ++ " for " ++ s.name ++ " :: " ++ counterName))
  else .ok t

def splicePopArgs (s : PerfSet) (counterName expression : String) :
    Nat → List String → List String → Except CgErr (List String × List String)
  | 0, stack, args => .ok (args, stack)
  | _ + 1, [], _ => .error .underflow
  | n + 1, v :: stack, args => do
    let o ← spliceResolve s counterName expression v
    splicePopArgs s counterName expression n stack (args ++ [o])

def spliceStep (s : PerfSet) (counterName expression : String)
    (stack : List String) (token : String) : Except CgErr (List String) :=
  match expOpOfToken token with
  | none => .ok (token :: stack)
  | some op => do
    let (args, stack') ← splicePopArgs s counterName expression 2 stack []
    .ok (spliceCallback op args :: stack')

def spliceScan (s : PerfSet) (counterName expression : String) (tokens : List String) :
    Except CgErr (List String) :=
  tokens.foldlM (spliceStep s counterName expression) []

def splice_rpn_expression (s : PerfSet) (counterName expression : String) :
    Except CgErr String := do
  let stack ← spliceScan s counterName expression (splitTokens expression)
  if stack.length ≠ 1 then
    .error (.malformed ("Spurious empty rpn expression for " ++ s.name ++ " :: " ++
      counterName ++ ".\nThis is probably due to some unhandled RPN operation, in the expression \"" ++
      expression ++ "\""))
  else
    .ok (stack.headD "")

/-! Sanity checks of the embedding on concrete inputs. -/

example : splitTokens "10 3 USUB" = ["10", "3", "USUB"] := by decide

example :
    output_rpn_equation_code ⟨"S", []⟩ "c" "10 3 USUB" =
      .ok ([⟨.uint64, 0, .sub (.opnd (.tok "10")) (.opnd (.tok "3"))⟩], .tmp 0) := rfl

example :
    splice_rpn_expression ⟨"S", []⟩ "c" "$GpuTimestampFrequency 500 UGTE" =
      .ok "perf->devinfo.timestamp_frequency >= 500" := rfl

/-! ## Propagation lemmas -/

theorem output_rpn_of_scan_ok (s : PerfSet) (cn eq : String) (st : CompSt)
    (h : scanTokens s cn eq (splitTokens eq) = .ok st) :
    output_rpn_equation_code s cn eq =
      (if st.stack.length ≠ 1 then
        .error (.malformed ("Spurious empty rpn code for " ++ s.name ++ " :: " ++
          cn ++ ".\nThis is probably due to some unhandled RPN function, in the equation \"" ++
          eq ++ "\""))
      else .ok (st.out, finalSubst s (st.stack.headD (.raw "")))) := by
  simp only [output_rpn_equation_code, h]
  rfl

theorem output_rpn_of_scan_error (s : PerfSet) (cn eq : String) (e : CgErr)
    (h : scanTokens s cn eq (splitTokens eq) = .error e) :
    output_rpn_equation_code s cn eq = .error e := by
  simp only [output_rpn_equation_code, h]
  rfl

theorem splice_of_scan_ok (s : PerfSet) (cn expr : String) (stack : List String)
    (h : spliceScan s cn expr (splitTokens expr) = .ok stack) :
    splice_rpn_expression s cn expr =
      (if stack.length ≠ 1 then
        .error (.malformed ("Spurious empty rpn expression for " ++ s.name ++ " :: " ++
          cn ++ ".\nThis is probably due to some unhandled RPN operation, in the expression \"" ++
          expr ++ "\""))
      else .ok (stack.headD "")) := by
  simp only [splice_rpn_expression, h]
  rfl

theorem splice_of_scan_error (s : PerfSet) (cn expr : String) (e : CgErr)
    (h : spliceScan s cn expr (splitTokens expr) = .error e) :
    splice_rpn_expression s cn expr = .error e := by
  simp only [splice_rpn_expression, h]
  rfl

/-- C6: for both `output_rpn_equation_code` and `splice_rpn_expression`, when
the token scan completes, a final stack of any length other than one makes
the call fail with the malformed-equation message, which contains the set
name, the counter name and the full equation (resp. expression) text; with
exactly one value left no such error is raised and a result is returned. -/
theorem c6_stack_depth_check :
    (∀ (s : PerfSet) (cn eq : String) (st : CompSt),
      scanTokens s cn eq (splitTokens eq) = .ok st →
      (st.stack.length ≠ 1 →
        ∃ x1 x2 x3 x4, output_rpn_equation_code s cn eq =
          .error (.malformed (x1 ++ s.name ++ x2 ++ cn ++ x3 ++ eq ++ x4)))
      ∧ (st.stack.length = 1 →
        ∃ out v, output_rpn_equation_code s cn eq = .ok (out, v)))
    ∧ (∀ (s : PerfSet) (cn expr : String) (stack : List String),
      spliceScan s cn expr (splitTokens expr) = .ok stack →
      (stack.length ≠ 1 →
        ∃ x1 x2 x3 x4, splice_rpn_expression s cn expr =
          .error (.malformed (x1 ++ s.name ++ x2 ++ cn ++ x3 ++ expr ++ x4)))
      ∧ (stack.length = 1 →
        ∃ r, splice_rpn_expression s cn expr = .ok r)) := by
  constructor
  · intro s cn eq st h
    constructor
    · intro hlen
      refine ⟨"Spurious empty rpn code for ", " :: ",
        ".\nThis is probably due to some unhandled RPN function, in the equation \"", "\"", ?_⟩
      rw [output_rpn_of_scan_ok s cn eq st h, if_pos hlen]
    · intro hlen
      refine ⟨st.out, finalSubst s (st.stack.headD (.raw "")), ?_⟩
      rw [output_rpn_of_scan_ok s cn eq st h, if_neg (by simp [hlen])]
  · intro s cn expr stack h
    constructor
    · intro hlen
      refine ⟨"Spurious empty rpn expression for ", " :: ",
        ".\nThis is probably due to some unhandled RPN operation, in the expression \"", "\"", ?_⟩
      rw [splice_of_scan_ok s cn expr stack h, if_pos hlen]
    · intro hlen
      refine ⟨stack.headD "", ?_⟩
      rw [splice_of_scan_ok s cn expr stack h, if_neg (by simp [hlen])]

theorem c6_stack_depth_check_witness :
    (scanTokens ⟨"RenderBasic", []⟩ "GpuTime" "10 3" (splitTokens "10 3") =
      .ok ⟨[.raw "3", .raw "10"], 0, []⟩)
    ∧ (∃ x1 x2 x3 x4, output_rpn_equation_code ⟨"RenderBasic", []⟩ "GpuTime" "10 3" =
        .error (.malformed (x1 ++ "RenderBasic" ++ x2 ++ "GpuTime" ++ x3 ++ "10 3" ++ x4)))
    ∧ (spliceScan ⟨"RenderBasic", []⟩ "GpuTime" "7" (splitTokens "7") = .ok ["7"])
    ∧ (∃ r, splice_rpn_expression ⟨"RenderBasic", []⟩ "GpuTime" "7" = .ok r) := by
  refine ⟨rfl, ?_, rfl, ?_⟩
  · exact (c6_stack_depth_check.1 ⟨"RenderBasic", []⟩ "GpuTime" "10 3"
      ⟨[.raw "3", .raw "10"], 0, []⟩ rfl).1 (by decide)
  · exact (c6_stack_depth_check.2 ⟨"RenderBasic", []⟩ "GpuTime" "7" ["7"] rfl).2 (by decide)

/-! ## C5: unresolvable references in `output_rpn_equation_code`

Lines 282-289 raise only when a `$`-token is popped as an operator operand.
A `$`-token that is never consumed by an operator — in particular the
single token of a one-token equation — reaches the final-substitution step
(lines 302-307), matches nothing there, and is emitted verbatim into the
final `return` statement with no error.  The claim as stated is therefore
refuted by the equation `"$Unknown"`. -/

/-- C5 counterexample: `"$Unknown"` is a `$`-prefixed token matching no
hardware variable and no counter of the (empty) set, yet
`output_rpn_equation_code` raises nothing and returns compiled output
(`return $Unknown;`). -/
theorem c5_unresolved_counterexample :
    startsDollar "$Unknown" = true
    ∧ lookupHw "$Unknown" = none
    ∧ lookupCounterVar ⟨"RenderBasic", []⟩ "$Unknown" = none
    ∧ output_rpn_equation_code ⟨"RenderBasic", []⟩ "GpuTime" "$Unknown" =
        .ok ([], .tok "$Unknown") := by
  refine ⟨by decide, by decide, by decide, rfl⟩

/-- C5 (amended): a `$`-token popped as an operator operand that matches
neither a hardware variable nor a counter of the set raises immediately,
with a message naming the token, the equation, the set and the counter, and
any scan error makes the call return that error and no compiled output; but
a `$`-token never consumed as an operand — one that survives as the sole
final stack value — is spliced into the final `return` without any
resolution check. -/
theorem c5_unresolved_amended :
    (∀ (s : PerfSet) (cn eq t : String), startsDollar t = true →
      lookupHw t = none → lookupCounterVar s t = none →
      resolveOperand s cn eq (.raw t) =
        .error (.unresolved ("Failed to resolve variable " ++ t ++
          " in equation " ++ eq ++ " for " ++ s.name ++ " :: " ++ cn)))
    ∧ (∀ (s : PerfSet) (cn eq : String) (e : CgErr),
        scanTokens s cn eq (splitTokens eq) = .error e →
        output_rpn_equation_code s cn eq = .error e)
    ∧ (∀ (s : PerfSet) (cn eq t : String) (n : Nat) (out : List Stmt),
        scanTokens s cn eq (splitTokens eq) = .ok ⟨[.raw t], n, out⟩ →
        lookupHw t = none → lookupCounterVar s t = none →
        output_rpn_equation_code s cn eq = .ok (out, .tok t)) := by
  refine ⟨?_, ?_, ?_⟩
  · intro s cn eq t hd hhw hcv
    simp only [resolveOperand, hd, hhw, hcv, if_pos]
  · intro s cn eq e h
    exact output_rpn_of_scan_error s cn eq e h
  · intro s cn eq t n out h hhw hcv
    rw [output_rpn_of_scan_ok s cn eq ⟨[.raw t], n, out⟩ h]
    simp [finalSubst, hhw, hcv]

theorem c5_unresolved_amended_witness :
    (startsDollar "$Foo" = true ∧ lookupHw "$Foo" = none
      ∧ lookupCounterVar ⟨"S", []⟩ "$Foo" = none
      ∧ resolveOperand ⟨"S", []⟩ "c" "3 $Foo UADD" (.raw "$Foo") =
          .error (.unresolved ("Failed to resolve variable " ++ "$Foo" ++
            " in equation " ++ "3 $Foo UADD" ++ " for " ++ "S" ++ " :: " ++ "c")))
    ∧ output_rpn_equation_code ⟨"S", []⟩ "c" "$Bar" = .ok ([], .tok "$Bar") := by
  refine ⟨⟨by decide, by decide, by decide,
    c5_unresolved_amended.1 ⟨"S", []⟩ "c" "3 $Foo UADD" "$Foo" (by decide) (by decide) (by decide)⟩, ?_⟩
  exact c5_unresolved_amended.2.2 ⟨"S", []⟩ "c" "$Bar" "$Bar" 0 [] rfl (by decide) (by decide)

/-! ## C8: counter references in `splice_rpn_expression`

Lines 322-327 raise for any non-hardware `$`-operand, but — exactly as in
`output_rpn_equation_code` — only when the token is popped as an operand of
an expression operator.  A counter-naming token that survives as the sole
stack value is returned verbatim by line 339, so the claim as stated is
refuted by the one-token expression `"$FooCounter"`. -/

/-- C8 counterexample: `$FooCounter` names a counter of the set and is not
a hardware variable, yet `splice_rpn_expression` on the one-token
expression `"$FooCounter"` raises nothing and returns the token. -/
theorem c8_counter_ref_counterexample :
    lookupCounterVar ⟨"RenderBasic", [("$FooCounter", "hsw__render_basic__foo__read")]⟩
        "$FooCounter" = some "hsw__render_basic__foo__read"
    ∧ lookupHw "$FooCounter" = none
    ∧ splice_rpn_expression ⟨"RenderBasic", [("$FooCounter", "hsw__render_basic__foo__read")]⟩
        "GpuTime" "$FooCounter" = .ok "$FooCounter" := by
  refine ⟨by decide, by decide, rfl⟩

/-- C8 (amended): a `$`-token popped as an operand of an expression
operator that is not a hardware variable — in particular one naming a
counter of the set — raises immediately with a message naming the token,
the expression, the set and the counter, and a scan error makes the whole
call fail; a successfully resolved operand is never a counter-read call:
it is either the token itself (non-`$`) or the hardware variable
replacement text; but a `$`-token never consumed as an operand — one that
survives as the sole final stack value — is returned verbatim with no
resolution check. -/
theorem c8_counter_ref_amended :
    (∀ (s : PerfSet) (cn expr t : String), startsDollar t = true →
      lookupHw t = none →
      spliceResolve s cn expr t =
        .error (.unresolved ("Failed to resolve variable " ++ t ++
          " in expression " ++ expr ++ " for " ++ s.name ++ " :: " ++ cn)))
    ∧ (∀ (s : PerfSet) (cn expr : String) (e : CgErr),
        spliceScan s cn expr (splitTokens expr) = .error e →
        splice_rpn_expression s cn expr = .error e)
    ∧ (∀ (s : PerfSet) (cn expr t r : String),
        spliceResolve s cn expr t = .ok r →
        (startsDollar t = false ∧ r = t) ∨ lookupHw t = some r)
    ∧ (∀ (s : PerfSet) (cn expr t : String),
        spliceScan s cn expr (splitTokens expr) = .ok [t] →
        splice_rpn_expression s cn expr = .ok t) := by
  refine ⟨?_, ?_, ?_, ?_⟩
  · intro s cn expr t hd hhw
    simp only [spliceResolve, hd, hhw, if_pos]
  · intro s cn expr e h
    exact splice_of_scan_error s cn expr e h
  · intro s cn expr t r h
    by_cases hd : startsDollar t
    · right
      rcases hhw : lookupHw t with _ | c
      · rw [spliceResolve, if_pos hd, hhw] at h
        exact absurd h (by simp)
      · rw [spliceResolve, if_pos hd, hhw] at h
        simpa using h
    · left
      rw [spliceResolve, if_neg hd] at h
      exact ⟨by simpa using hd, by simpa using h.symm⟩
  · intro s cn expr t h
    rw [splice_of_scan_ok s cn expr [t] h]
    simp

theorem c8_counter_ref_amended_witness :
    (startsDollar "$FooCounter" = true ∧ lookupHw "$FooCounter" = none
      ∧ spliceResolve ⟨"S", [("$FooCounter", "f")]⟩ "c" "$FooCounter 1 UGTE" "$FooCounter" =
          .error (.unresolved ("Failed to resolve variable " ++ "$FooCounter" ++
            " in expression " ++ "$FooCounter 1 UGTE" ++ " for " ++ "S" ++ " :: " ++ "c")))
    ∧ splice_rpn_expression ⟨"S", [("$FooCounter", "f")]⟩ "c" "$FooCounter" = .ok "$FooCounter" := by
  refine ⟨⟨by decide, by decide,
    c8_counter_ref_amended.1 ⟨"S", [("$FooCounter", "f")]⟩ "c" "$FooCounter 1 UGTE"
      "$FooCounter" (by decide) (by decide)⟩, ?_⟩
  exact c8_counter_ref_amended.2.2.2 ⟨"S", [("$FooCounter", "f")]⟩ "c" "$FooCounter"
    "$FooCounter" rfl

/-- C10: an expression that tokenises to a single non-operator token is
returned verbatim by `splice_rpn_expression`: no error and no substitution,
even for a `$`-prefixed hardware-variable token. -/
theorem c10_single_token_verbatim (s : PerfSet) (cn expr t : String)
    (htok : splitTokens expr = [t]) (hop : expOpOfToken t = none) :
    splice_rpn_expression s cn expr = .ok t := by
  have hscan : spliceScan s cn expr (splitTokens expr) = .ok [t] := by
    rw [htok]
    simp only [spliceScan, List.foldlM, spliceStep, hop]
    rfl
  rw [splice_of_scan_ok s cn expr [t] hscan]
  simp

theorem c10_single_token_verbatim_witness :
    splitTokens "$SliceMask" = ["$SliceMask"]
    ∧ expOpOfToken "$SliceMask" = none
    ∧ lookupHw "$SliceMask" = some "perf->devinfo.slice_mask"
    ∧ splice_rpn_expression ⟨"S", []⟩ "c" "$SliceMask" = .ok "$SliceMask" := by
  refine ⟨by decide, by decide, by decide, ?_⟩
  exact c10_single_token_verbatim ⟨"S", []⟩ "c" "$SliceMask" "$SliceMask" (by decide) (by decide)

/-! ## Numeric semantics for C1

Values are rationals; the unsigned C operators act through the integer
part (`Rat.floor`), with `Int.tdiv` for C's truncating `/`.  Division by
zero yields 0 exactly as the emitted `den ? num / den : 0` guard does.
`READ` dereferences the accumulator array through a C struct *field name*
spliced from the type operand, so it has no meaning in pure numeric RPN
evaluation; it is excluded from the equivalence theorem by hypothesis and
both of its evaluations below are placeholders that the theorem never
reaches.  `READ_REG` always emits the constant 0 (deliberately
unimplemented in the source). -/

def litValQ (t : String) : ℚ := ((tokenToNat t).getD 0 : Nat)

def evalOperand (env : Nat → ℚ) : Operand → ℚ
  | .tok t => litValQ t
  | .tmp k => env k
  | .ctext _ => 0

def evalCExpr (env : Nat → ℚ) : CExpr → ℚ
  | .opnd o => evalOperand env o
  | .tmp k => env k
  | .lit n => (n : ℚ)
  | .add a b => evalCExpr env a + evalCExpr env b
  | .sub a b => evalCExpr env a - evalCExpr env b
  | .mul a b => evalCExpr env a * evalCExpr env b
  | .fdivE a b => evalCExpr env a / evalCExpr env b
  | .udivE a b => ((Rat.floor (evalCExpr env a)).tdiv (Rat.floor (evalCExpr env b)) : ℤ)
  | .cond c t e => if evalCExpr env c ≠ 0 then evalCExpr env t else evalCExpr env e
  | .maxE a b => max (evalCExpr env a) (evalCExpr env b)
  | .minE a b => min (evalCExpr env a) (evalCExpr env b)
  | .shlE a b => ((Rat.floor (evalCExpr env a) * 2 ^ (Rat.floor (evalCExpr env b)).toNat : ℤ) : ℚ)
  | .shrE a b => ((Int.tdiv (Rat.floor (evalCExpr env a)) (2 ^ (Rat.floor (evalCExpr env b)).toNat) : ℤ) : ℚ)
  | .bandE a b => ((Int.land (Rat.floor (evalCExpr env a)) (Rat.floor (evalCExpr env b)) : ℤ) : ℚ)
  | .accRead _ _ => 0

def execStmt (env : Nat → ℚ) (st : Stmt) : Nat → ℚ :=
  Function.update env st.id (evalCExpr env st.rhs)

def execStmts (out : List Stmt) (env : Nat → ℚ) : Nat → ℚ :=
  out.foldl execStmt env

/-- The value of the compiled output: run the emitted statements from an
all-zero environment and evaluate the operand of the final `return`. -/
def progValue (out : List Stmt) (ret : Operand) : ℚ :=
  evalOperand (execStmts out (fun _ => 0)) ret

/-! ## Direct stack evaluation of the equation as standard RPN.

The argument list is in pop order, matching `emitOp`: `args[0]` is the
right-hand operand. -/

def opSem : Op → List ℚ → Option ℚ
  | .FADD, a => some (a.getD 1 0 + a.getD 0 0)
  | .FDIV, a => some (if a.getD 0 0 ≠ 0 then a.getD 1 0 / a.getD 0 0 else 0)
  | .FMAX, a => some (max (a.getD 1 0) (a.getD 0 0))
  | .FMUL, a => some (a.getD 1 0 * a.getD 0 0)
  | .FSUB, a => some (a.getD 1 0 - a.getD 0 0)
  | .READ, _ => none
  | .READ_REG, _ => some 0
  | .UADD, a => some (a.getD 1 0 + a.getD 0 0)
  | .UDIV, a => some (if a.getD 0 0 ≠ 0 then
      ((Rat.floor (a.getD 1 0)).tdiv (Rat.floor (a.getD 0 0)) : ℤ) else 0)
  | .UMUL, a => some (a.getD 1 0 * a.getD 0 0)
  | .USUB, a => some (a.getD 1 0 - a.getD 0 0)
  | .UMIN, a => some (min (a.getD 1 0) (a.getD 0 0))
  | .LSHFT, a => some ((Rat.floor (a.getD 1 0) * 2 ^ (Rat.floor (a.getD 0 0)).toNat : ℤ) : ℚ)
  | .RSHFT, a => some ((Int.tdiv (Rat.floor (a.getD 1 0)) (2 ^ (Rat.floor (a.getD 0 0)).toNat) : ℤ) : ℚ)
  | .AND, a => some ((Int.land (Rat.floor (a.getD 1 0)) (Rat.floor (a.getD 0 0)) : ℤ) : ℚ)

def rpnDirectStep (st : List ℚ) (tok : String) : Option (List ℚ) :=
  match opOfToken tok with
  | none => some (litValQ tok :: st)
  | some op =>
    if op.argc ≤ st.length then
      (opSem op (st.take op.argc)).map (· :: st.drop op.argc)
    else none

def rpnDirectEval (tokens : List String) : Option ℚ := do
  let st ← tokens.foldlM rpnDirectStep []
  match st with
  | [q] => some q
  | _ => none

example : rpnDirectEval (splitTokens "10 3 USUB") = some (litValQ "10" - litValQ "3") := rfl

example : litValQ "10" - litValQ "3" = 7 := by
  have h10 : tokenToNat "10" = some 10 := by decide
  have h3 : tokenToNat "3" = some 3 := by decide
  simp [litValQ, h10, h3]
  norm_num

example : rpnDirectEval (splitTokens "9 0 UDIV") = some 0 := by decide
example : rpnDirectEval (splitTokens "9 0 FDIV") = some 0 := by decide

/-! ## C1: the compiled statements compute the direct RPN value

A simulation argument: after each token, every compiler stack entry,
evaluated in the environment produced by the statements emitted so far,
equals the corresponding entry of the direct evaluation stack. -/

def svOperand : StackVal → Operand
  | .raw t => .tok t
  | .tmp k => .tmp k

/-- Well-formedness of one stack entry: raw entries are numeric literals
(the domain of claim C1) and temporaries are already assigned. -/
def svBound (v : StackVal) (n : Nat) : Prop :=
  match v with
  | .raw t => isNumericLiteral t = true
  | .tmp k => k < n

def opndBound (o : Operand) (n : Nat) : Prop :=
  match o with
  | .tmp k => k < n
  | _ => True

/-- The token domain of claim C1: numeric literals and operator mnemonics,
excluding `READ` whose type operand is a C struct field name rather than a
value. -/
def GoodToken (t : String) : Prop :=
  isNumericLiteral t = true ∨ (opOfToken t ≠ none ∧ opOfToken t ≠ some Op.READ)

instance (t : String) : Decidable (GoodToken t) := by
  unfold GoodToken
  infer_instance

structure SimInv (st : CompSt) (ds : List ℚ) : Prop where
  rel : List.Forall₂
    (fun v q => svBound v st.tmp_id ∧
      evalOperand (execStmts st.out (fun _ => 0)) (svOperand v) = q) st.stack ds
  outLt : ∀ stm ∈ st.out, stm.id < st.tmp_id

theorem execStmts_append (out₁ out₂ : List Stmt) (env : Nat → ℚ) :
    execStmts (out₁ ++ out₂) env = execStmts out₂ (execStmts out₁ env) := by
  simp [execStmts, List.foldl_append]

theorem svBound_mono {v : StackVal} {m n : Nat} (h : svBound v m) (hmn : m ≤ n) :
    svBound v n := by
  cases v with
  | raw t => exact h
  | tmp k => exact lt_of_lt_of_le h hmn

theorem opndBound_svOperand {v : StackVal} {n : Nat} (h : svBound v n) :
    opndBound (svOperand v) n := by
  cases v with
  | raw t => trivial
  | tmp k => exact h

theorem evalOperand_update {env : Nat → ℚ} {j : Nat} {w : ℚ} {o : Operand} {n : Nat}
    (hb : opndBound o n) (hj : n ≤ j) :
    evalOperand (Function.update env j w) o = evalOperand env o := by
  cases o with
  | tok t => rfl
  | ctext t => rfl
  | tmp k => exact Function.update_noteq (Nat.ne_of_lt (lt_of_lt_of_le hb hj)) w env

theorem resolveOperand_ok (s : PerfSet) (cn eq : String) (v : StackVal) (n : Nat)
    (hb : svBound v n) : resolveOperand s cn eq v = .ok (svOperand v) := by
  cases v with
  | tmp k => rfl
  | raw t =>
    have hd : startsDollar t = false := by
      have := hb
      simp only [svBound, isNumericLiteral, Bool.and_eq_true, Bool.not_eq_true'] at this
      exact this.2
    simp [resolveOperand, hd, svOperand]

theorem popArgs_two (s : PerfSet) (cn eq : String) (v0 v1 : StackVal) (rest : List StackVal)
    (n : Nat) (hb0 : svBound v0 n) (hb1 : svBound v1 n) :
    popArgs s cn eq 2 (v0 :: v1 :: rest) [] =
      .ok ([svOperand v0, svOperand v1], rest) := by
  simp only [popArgs, resolveOperand_ok s cn eq v0 n hb0, resolveOperand_ok s cn eq v1 n hb1]
  rfl

theorem popArgs_one (s : PerfSet) (cn eq : String) (v0 : StackVal) (rest : List StackVal)
    (n : Nat) (hb0 : svBound v0 n) :
    popArgs s cn eq 1 (v0 :: rest) [] = .ok ([svOperand v0], rest) := by
  simp only [popArgs, resolveOperand_ok s cn eq v0 n hb0]
  rfl

theorem popArgs_nil_underflow (s : PerfSet) (cn eq : String) (m : Nat) :
    popArgs s cn eq (m + 1) [] [] = .error .underflow := rfl

theorem popArgs_one_underflow (s : PerfSet) (cn eq : String) (v0 : StackVal)
    (m : Nat) (n : Nat) (hb0 : svBound v0 n) :
    popArgs s cn eq (m + 2) [v0] [] = .error .underflow := by
  simp only [popArgs, resolveOperand_ok s cn eq v0 n hb0]
  rfl

theorem lookupHw_startsDollar {t r : String} (h : lookupHw t = some r) :
    startsDollar t = true := by
  have hall : ∀ p ∈ hw_vars, startsDollar p.1 = true := by decide
  unfold lookupHw at h
  rcases hfind : hw_vars.find? (fun p => p.1 == t) with _ | p
  · rw [hfind] at h
    simp at h
  · have hp := @List.find?_some _ (fun q : String × String => q.1 == t) p hw_vars hfind
    have hmem := List.mem_of_find?_eq_some hfind
    have hpt : p.1 = t := by simpa using hp
    exact hpt ▸ hall p hmem

theorem lookupCounterVar_startsDollar {s : PerfSet} {t r : String} (hwf : s.WfKeys)
    (h : lookupCounterVar s t = some r) : startsDollar t = true := by
  unfold lookupCounterVar at h
  rcases hfind : s.counter_vars.find? (fun p => p.1 == t) with _ | p
  · rw [hfind] at h
    simp at h
  · have hp := @List.find?_some _ (fun q : String × String => q.1 == t) p s.counter_vars hfind
    have hmem := List.mem_of_find?_eq_some hfind
    have hpt : p.1 = t := by simpa using hp
    exact hpt ▸ hwf p hmem

theorem finalSubst_eq_svOperand (s : PerfSet) (hwf : s.WfKeys) (v : StackVal) (n : Nat)
    (hb : svBound v n) : finalSubst s v = svOperand v := by
  cases v with
  | tmp k => rfl
  | raw t =>
    have hd : startsDollar t = false := by
      have := hb
      simp only [svBound, isNumericLiteral, Bool.and_eq_true, Bool.not_eq_true'] at this
      exact this.2
    have hhw : lookupHw t = none := by
      rcases hh : lookupHw t with _ | r
      · rfl
      · exact absurd (lookupHw_startsDollar hh) (by simp [hd])
    have hcv : lookupCounterVar s t = none := by
      rcases hh : lookupCounterVar s t with _ | r
      · rfl
      · exact absurd (lookupCounterVar_startsDollar hwf hh) (by simp [hd])
    simp [finalSubst, hhw, hcv, svOperand]

theorem forall₂_env_extend {rest : List StackVal} {dsRest : List ℚ} {tid tid' : Nat}
    {out new : List Stmt}
    (hrel : List.Forall₂ (fun v q => svBound v tid ∧
      evalOperand (execStmts out (fun _ => 0)) (svOperand v) = q) rest dsRest)
    (htid : tid ≤ tid')
    (hnew : ∀ k, k < tid → execStmts new (execStmts out (fun _ => 0)) k =
      execStmts out (fun _ => 0) k) :
    List.Forall₂ (fun v q => svBound v tid' ∧
      evalOperand (execStmts (out ++ new) (fun _ => 0)) (svOperand v) = q) rest dsRest := by
  refine hrel.imp ?_
  rintro v q ⟨hb, he⟩
  refine ⟨svBound_mono hb htid, ?_⟩
  rw [execStmts_append]
  cases v with
  | raw t => exact he
  | tmp k =>
    have hk : k < tid := hb
    simpa [svOperand, evalOperand, hnew k hk] using he

/-- Push helper for the single-statement emitters: one new statement
assigning `tmp_id`, one new stack entry `tmp tmp_id`, next id `tmp_id + 1`. -/
theorem simInv_push_one {rest : List StackVal} {dsRest : List ℚ} {tid : Nat}
    {out : List Stmt} (ty : CType) (rhs : CExpr) (w : ℚ)
    (hrel : List.Forall₂ (fun v q => svBound v tid ∧
      evalOperand (execStmts out (fun _ => 0)) (svOperand v) = q) rest dsRest)
    (hout : ∀ stm ∈ out, stm.id < tid)
    (hw : evalCExpr (execStmts out (fun _ => 0)) rhs = w) :
    SimInv ⟨.tmp tid :: rest, tid + 1, out ++ [⟨ty, tid, rhs⟩]⟩ (w :: dsRest) := by
  have hnew : ∀ k, k < tid →
      execStmts [⟨ty, tid, rhs⟩] (execStmts out (fun _ => 0)) k =
        execStmts out (fun _ => 0) k := by
    intro k hk
    simp only [execStmts, List.foldl_cons, List.foldl_nil, execStmt]
    exact Function.update_noteq (Nat.ne_of_lt hk) _ _
  constructor
  · refine List.Forall₂.cons ⟨Nat.lt_succ_self tid, ?_⟩
      (forall₂_env_extend hrel (Nat.le_succ tid) hnew)
    rw [execStmts_append]
    show execStmts [⟨ty, tid, rhs⟩] (execStmts out (fun _ => 0)) tid = w
    simp only [execStmts, List.foldl_cons, List.foldl_nil, execStmt]
    rw [Function.update_same]
    exact hw
  · intro stm hstm
    rcases List.mem_append.mp hstm with h | h
    · exact Nat.lt_succ_of_lt (hout stm h)
    · simp at h
      subst h
      exact Nat.lt_succ_self tid

/-- Push helper for the three-statement emitters (`FDIV`, `UDIV`, `FMAX`):
`tmp_id := a1`, `tmp_id+1 := a0`, then a combining statement over the two
fresh temporaries; next id `tmp_id + 3`. -/
theorem simInv_push_three {rest : List StackVal} {dsRest : List ℚ} {tid : Nat}
    {out : List Stmt} (ty : CType) (a1 a0 : Operand) (q1 q0 : ℚ) (rhs3 : CExpr) (w : ℚ)
    (hrel : List.Forall₂ (fun v q => svBound v tid ∧
      evalOperand (execStmts out (fun _ => 0)) (svOperand v) = q) rest dsRest)
    (hout : ∀ stm ∈ out, stm.id < tid)
    (hb0 : opndBound a0 tid)
    (he1 : evalOperand (execStmts out (fun _ => 0)) a1 = q1)
    (he0 : evalOperand (execStmts out (fun _ => 0)) a0 = q0)
    (hrhs3 : ∀ env : Nat → ℚ, env tid = q1 → env (tid + 1) = q0 →
      evalCExpr env rhs3 = w) :
    SimInv ⟨.tmp (tid + 2) :: rest, tid + 3,
      out ++ [⟨ty, tid, .opnd a1⟩, ⟨ty, tid + 1, .opnd a0⟩, ⟨ty, tid + 2, rhs3⟩]⟩
      (w :: dsRest) := by
  have hnew : ∀ k, k < tid →
      execStmts [⟨ty, tid, .opnd a1⟩, ⟨ty, tid + 1, .opnd a0⟩, ⟨ty, tid + 2, rhs3⟩]
        (execStmts out (fun _ => 0)) k = execStmts out (fun _ => 0) k := by
    intro k hk
    simp only [execStmts, List.foldl_cons, List.foldl_nil, execStmt]
    rw [Function.update_noteq (show k ≠ tid + 2 by omega),
      Function.update_noteq (show k ≠ tid + 1 by omega),
      Function.update_noteq (show k ≠ tid by omega)]
  refine ⟨?_, ?_⟩
  · refine List.Forall₂.cons ⟨show tid + 2 < tid + 3 by omega, ?_⟩
      (forall₂_env_extend hrel (show tid ≤ tid + 3 by omega) hnew)
    show evalOperand (execStmts (out ++ _) (fun _ => 0)) (svOperand (.tmp (tid + 2))) = w
    rw [execStmts_append]
    simp only [svOperand, evalOperand, execStmts, List.foldl_cons, List.foldl_nil, execStmt]
    rw [Function.update_same]
    refine hrhs3 _ ?_ ?_
    · rw [Function.update_noteq (show tid ≠ tid + 1 by omega), Function.update_same]
      simp only [evalCExpr]
      exact he1
    · rw [Function.update_same]
      simp only [evalCExpr]
      rw [evalOperand_update hb0 (le_refl tid)]
      exact he0
  · intro stm hstm
    show stm.id < tid + 3
    rcases List.mem_append.mp hstm with h | h
    · exact lt_of_lt_of_le (hout stm h) (by omega)
    · simp only [List.mem_cons, List.not_mem_nil, or_false] at h
      rcases h with h | h | h
      · subst h
        exact show tid < tid + 3 by omega
      · subst h
        exact show tid + 1 < tid + 3 by omega
      · subst h
        exact show tid + 2 < tid + 3 by omega

theorem popArgs_two_nil (s : PerfSet) (cn eq : String) :
    popArgs s cn eq 2 [] [] = .error .underflow := rfl

theorem popArgs_one_nil (s : PerfSet) (cn eq : String) :
    popArgs s cn eq 1 [] [] = .error .underflow := rfl

theorem popArgs_two_single (s : PerfSet) (cn eq : String) (v0 : StackVal) (n : Nat)
    (hb0 : svBound v0 n) : popArgs s cn eq 2 [v0] [] = .error .underflow := by
  simp only [popArgs, resolveOperand_ok s cn eq v0 n hb0]
  rfl

theorem rpnStep_op_ok (s : PerfSet) (cn eq t : String) (op : Op) (st : CompSt)
    (args : List Operand) (stack' : List StackVal)
    (hop : opOfToken t = some op)
    (hpop : popArgs s cn eq op.argc st.stack [] = .ok (args, stack')) :
    rpnStep s cn eq st t = .ok ⟨.tmp ((emitOp op st.tmp_id args).2 - 1) :: stack',
      (emitOp op st.tmp_id args).2, st.out ++ (emitOp op st.tmp_id args).1⟩ := by
  simp only [rpnStep, hop, hpop]
  rfl

theorem rpnStep_op_error (s : PerfSet) (cn eq t : String) (op : Op) (st : CompSt)
    (e : CgErr) (hop : opOfToken t = some op)
    (hpop : popArgs s cn eq op.argc st.stack [] = .error e) :
    rpnStep s cn eq st t = .error e := by
  simp only [rpnStep, hop, hpop]
  rfl

/-- Simulation dichotomy for one token: either both sides fail (operand
underflow) or both sides succeed with related results. -/
def StepSim (s : PerfSet) (cn eq t : String) (st : CompSt) (ds : List ℚ) : Prop :=
  (rpnStep s cn eq st t = .error .underflow ∧ rpnDirectStep ds t = none) ∨
  (∃ st' ds', rpnStep s cn eq st t = .ok st' ∧ rpnDirectStep ds t = some ds' ∧ SimInv st' ds')

/-- Generic two-operand, single-statement operator case. -/
theorem step_sim_two (s : PerfSet) (cn eq t : String) (op : Op) (ty : CType)
    (mk1 : Operand → Operand → CExpr) (sem : ℚ → ℚ → ℚ)
    (stack : List StackVal) (ds : List ℚ) (tid : Nat) (out : List Stmt)
    (hop : opOfToken t = some op)
    (hargc : op.argc = 2)
    (hemit : ∀ a0 a1 : Operand, emitOp op tid [a0, a1] = ([⟨ty, tid, mk1 a0 a1⟩], tid + 1))
    (hsem : ∀ q0 q1 : ℚ, opSem op [q0, q1] = some (sem q0 q1))
    (heval : ∀ (env : Nat → ℚ) (a0 a1 : Operand),
      evalCExpr env (mk1 a0 a1) = sem (evalOperand env a0) (evalOperand env a1))
    (hrel : List.Forall₂ (fun v q => svBound v tid ∧
      evalOperand (execStmts out (fun _ => 0)) (svOperand v) = q) stack ds)
    (hout : ∀ stm ∈ out, stm.id < tid) :
    StepSim s cn eq t ⟨stack, tid, out⟩ ds := by
  cases stack with
  | nil =>
    cases hrel
    left
    refine ⟨rpnStep_op_error s cn eq t op _ _ hop (by rw [hargc]; rfl), ?_⟩
    simp [rpnDirectStep, hop, hargc]
  | cons v0 rest0 =>
    rcases hrel with _ | ⟨⟨hb0, he0⟩, hrel0⟩
    cases rest0 with
    | nil =>
      cases hrel0
      left
      refine ⟨rpnStep_op_error s cn eq t op _ _ hop
        (by rw [hargc]; exact popArgs_two_single s cn eq v0 tid hb0), ?_⟩
      simp [rpnDirectStep, hop, hargc]
    | cons v1 rest =>
      rcases hrel0 with _ | ⟨⟨hb1, he1⟩, hrel1⟩
      right
      rename_i q0 q1 dsRest
      refine ⟨⟨.tmp tid :: rest, tid + 1, out ++ [⟨ty, tid, mk1 (svOperand v0) (svOperand v1)⟩]⟩,
        sem q0 q1 :: dsRest, ?_, ?_, ?_⟩
      · rw [rpnStep_op_ok s cn eq t op _ [svOperand v0, svOperand v1] rest hop
          (by rw [hargc]; exact popArgs_two s cn eq v0 v1 rest tid hb0 hb1)]
        rw [hemit (svOperand v0) (svOperand v1)]
        simp
      · simp only [rpnDirectStep, hop, hargc]
        rw [if_pos (by simp)]
        simp only [List.take_succ_cons, List.take_zero, List.drop_succ_cons, List.drop_zero,
          hsem q0 q1]
        rfl
      · exact simInv_push_one ty (mk1 (svOperand v0) (svOperand v1)) (sem q0 q1) hrel1 hout
          (by rw [heval, he0, he1])

/-- Generic two-operand, three-statement operator case (`FDIV`, `UDIV`,
`FMAX`). -/
theorem step_sim_three (s : PerfSet) (cn eq t : String) (op : Op) (ty : CType)
    (rhs3 : CExpr) (sem : ℚ → ℚ → ℚ)
    (stack : List StackVal) (ds : List ℚ) (tid : Nat) (out : List Stmt)
    (hop : opOfToken t = some op)
    (hargc : op.argc = 2)
    (hemit : ∀ a0 a1 : Operand, emitOp op tid [a0, a1] =
      ([⟨ty, tid, .opnd a1⟩, ⟨ty, tid + 1, .opnd a0⟩, ⟨ty, tid + 2, rhs3⟩], tid + 3))
    (hsem : ∀ q0 q1 : ℚ, opSem op [q0, q1] = some (sem q0 q1))
    (hrhs3 : ∀ (env : Nat → ℚ) (q0 q1 : ℚ), env tid = q1 → env (tid + 1) = q0 →
      evalCExpr env rhs3 = sem q0 q1)
    (hrel : List.Forall₂ (fun v q => svBound v tid ∧
      evalOperand (execStmts out (fun _ => 0)) (svOperand v) = q) stack ds)
    (hout : ∀ stm ∈ out, stm.id < tid) :
    StepSim s cn eq t ⟨stack, tid, out⟩ ds := by
  cases stack with
  | nil =>
    cases hrel
    left
    refine ⟨rpnStep_op_error s cn eq t op _ _ hop (by rw [hargc]; rfl), ?_⟩
    simp [rpnDirectStep, hop, hargc]
  | cons v0 rest0 =>
    rcases hrel with _ | ⟨⟨hb0, he0⟩, hrel0⟩
    cases rest0 with
    | nil =>
      cases hrel0
      left
      refine ⟨rpnStep_op_error s cn eq t op _ _ hop
        (by rw [hargc]; exact popArgs_two_single s cn eq v0 tid hb0), ?_⟩
      simp [rpnDirectStep, hop, hargc]
    | cons v1 rest =>
      rcases hrel0 with _ | ⟨⟨hb1, he1⟩, hrel1⟩
      right
      rename_i q0 q1 dsRest
      refine ⟨⟨.tmp (tid + 2) :: rest, tid + 3,
        out ++ [⟨ty, tid, .opnd (svOperand v1)⟩, ⟨ty, tid + 1, .opnd (svOperand v0)⟩,
          ⟨ty, tid + 2, rhs3⟩]⟩, sem q0 q1 :: dsRest, ?_, ?_, ?_⟩
      · rw [rpnStep_op_ok s cn eq t op _ [svOperand v0, svOperand v1] rest hop
          (by rw [hargc]; exact popArgs_two s cn eq v0 v1 rest tid hb0 hb1)]
        rw [hemit (svOperand v0) (svOperand v1)]
        simp
      · simp only [rpnDirectStep, hop, hargc]
        rw [if_pos (by simp)]
        simp only [List.take_succ_cons, List.take_zero, List.drop_succ_cons, List.drop_zero,
          hsem q0 q1]
        rfl
      · exact simInv_push_three ty (svOperand v1) (svOperand v0) q1 q0 rhs3 (sem q0 q1)
          hrel1 hout (opndBound_svOperand hb0) he1 he0
          (fun env h1 h0 => hrhs3 env q0 q1 h1 h0)

theorem opOfToken_not_lit {t : String} {op : Op} (h : opOfToken t = some op) :
    isNumericLiteral t = false := by
  rw [opOfToken] at h
  by_cases h1 : t = "FADD"
  · subst h1
    decide
  rw [if_neg h1] at h
  by_cases h2 : t = "FDIV"
  · subst h2
    decide
  rw [if_neg h2] at h
  by_cases h3 : t = "FMAX"
  · subst h3
    decide
  rw [if_neg h3] at h
  by_cases h4 : t = "FMUL"
  · subst h4
    decide
  rw [if_neg h4] at h
  by_cases h5 : t = "FSUB"
  · subst h5
    decide
  rw [if_neg h5] at h
  by_cases h6 : t = "READ"
  · subst h6
    decide
  rw [if_neg h6] at h
  by_cases h7 : t = "READ_REG"
  · subst h7
    decide
  rw [if_neg h7] at h
  by_cases h8 : t = "UADD"
  · subst h8
    decide
  rw [if_neg h8] at h
  by_cases h9 : t = "UDIV"
  · subst h9
    decide
  rw [if_neg h9] at h
  by_cases h10 : t = "UMUL"
  · subst h10
    decide
  rw [if_neg h10] at h
  by_cases h11 : t = "USUB"
  · subst h11
    decide
  rw [if_neg h11] at h
  by_cases h12 : t = "UMIN"
  · subst h12
    decide
  rw [if_neg h12] at h
  by_cases h13 : t = "<<"
  · subst h13
    decide
  rw [if_neg h13] at h
  by_cases h14 : t = ">>"
  · subst h14
    decide
  rw [if_neg h14] at h
  by_cases h15 : t = "AND"
  · subst h15
    decide
  rw [if_neg h15] at h
  exact Option.noConfusion h

/-- One token preserves the simulation. -/
theorem rpnStep_sim (s : PerfSet) (cn eq t : String) (st : CompSt) (ds : List ℚ)
    (hinv : SimInv st ds) (hg : GoodToken t) : StepSim s cn eq t st ds := by
  obtain ⟨stack, tid, out⟩ := st
  have hrel := hinv.rel
  have hout := hinv.outLt
  cases hop : opOfToken t with
  | none =>
    right
    have hlit : isNumericLiteral t = true := by
      rcases hg with h | ⟨h1, _⟩
      · exact h
      · exact absurd hop h1
    refine ⟨⟨.raw t :: stack, tid, out⟩, litValQ t :: ds, ?_, ?_, ?_⟩
    · simp only [rpnStep, hop]
    · simp only [rpnDirectStep, hop]
    · exact ⟨List.Forall₂.cons ⟨hlit, rfl⟩ hrel, hout⟩
  | some op =>
    have hne : op ≠ Op.READ := by
      rcases hg with h | ⟨_, h2⟩
      · exact fun _ => absurd (opOfToken_not_lit hop) (by simp [h])
      · intro heq
        subst heq
        exact h2 hop
    cases op with
    | READ => exact absurd rfl hne
    | FADD =>
      exact step_sim_two s cn eq t .FADD .double (fun a0 a1 => .add (.opnd a1) (.opnd a0))
        (fun q0 q1 => q1 + q0) stack ds tid out hop rfl (fun _ _ => rfl) (fun _ _ => rfl)
        (fun _ _ _ => rfl) hrel hout
    | FMUL =>
      exact step_sim_two s cn eq t .FMUL .double (fun a0 a1 => .mul (.opnd a1) (.opnd a0))
        (fun q0 q1 => q1 * q0) stack ds tid out hop rfl (fun _ _ => rfl) (fun _ _ => rfl)
        (fun _ _ _ => rfl) hrel hout
    | FSUB =>
      exact step_sim_two s cn eq t .FSUB .double (fun a0 a1 => .sub (.opnd a1) (.opnd a0))
        (fun q0 q1 => q1 - q0) stack ds tid out hop rfl (fun _ _ => rfl) (fun _ _ => rfl)
        (fun _ _ _ => rfl) hrel hout
    | UADD =>
      exact step_sim_two s cn eq t .UADD .uint64 (fun a0 a1 => .add (.opnd a1) (.opnd a0))
        (fun q0 q1 => q1 + q0) stack ds tid out hop rfl (fun _ _ => rfl) (fun _ _ => rfl)
        (fun _ _ _ => rfl) hrel hout
    | UMUL =>
      exact step_sim_two s cn eq t .UMUL .uint64 (fun a0 a1 => .mul (.opnd a1) (.opnd a0))
        (fun q0 q1 => q1 * q0) stack ds tid out hop rfl (fun _ _ => rfl) (fun _ _ => rfl)
        (fun _ _ _ => rfl) hrel hout
    | USUB =>
      exact step_sim_two s cn eq t .USUB .uint64 (fun a0 a1 => .sub (.opnd a1) (.opnd a0))
        (fun q0 q1 => q1 - q0) stack ds tid out hop rfl (fun _ _ => rfl) (fun _ _ => rfl)
        (fun _ _ _ => rfl) hrel hout
    | UMIN =>
      exact step_sim_two s cn eq t .UMIN .uint64 (fun a0 a1 => .minE (.opnd a1) (.opnd a0))
        (fun q0 q1 => min q1 q0) stack ds tid out hop rfl (fun _ _ => rfl) (fun _ _ => rfl)
        (fun _ _ _ => rfl) hrel hout
    | LSHFT =>
      exact step_sim_two s cn eq t .LSHFT .uint64 (fun a0 a1 => .shlE (.opnd a1) (.opnd a0))
        (fun q0 q1 => ((Rat.floor q1 * 2 ^ (Rat.floor q0).toNat : ℤ) : ℚ)) stack ds tid out
        hop rfl (fun _ _ => rfl) (fun _ _ => rfl) (fun _ _ _ => rfl) hrel hout
    | RSHFT =>
      exact step_sim_two s cn eq t .RSHFT .uint64 (fun a0 a1 => .shrE (.opnd a1) (.opnd a0))
        (fun q0 q1 => ((Int.tdiv (Rat.floor q1) (2 ^ (Rat.floor q0).toNat) : ℤ) : ℚ)) stack ds
        tid out hop rfl (fun _ _ => rfl) (fun _ _ => rfl) (fun _ _ _ => rfl) hrel hout
    | AND =>
      exact step_sim_two s cn eq t .AND .uint64 (fun a0 a1 => .bandE (.opnd a1) (.opnd a0))
        (fun q0 q1 => ((Int.land (Rat.floor q1) (Rat.floor q0) : ℤ) : ℚ)) stack ds tid out
        hop rfl (fun _ _ => rfl) (fun _ _ => rfl) (fun _ _ _ => rfl) hrel hout
    | FDIV =>
      refine step_sim_three s cn eq t .FDIV .double
        (.cond (.tmp (tid + 1)) (.fdivE (.tmp tid) (.tmp (tid + 1))) (.lit 0))
        (fun q0 q1 => if q0 ≠ 0 then q1 / q0 else 0) stack ds tid out hop rfl
        (fun _ _ => rfl) (fun _ _ => rfl) ?_ hrel hout
      intro env q0 q1 h1 h0
      simp only [evalCExpr, h1, h0]
      by_cases hz : q0 = 0
      · simp [hz]
      · simp [hz]
    | UDIV =>
      refine step_sim_three s cn eq t .UDIV .uint64
        (.cond (.tmp (tid + 1)) (.udivE (.tmp tid) (.tmp (tid + 1))) (.lit 0))
        (fun q0 q1 => if q0 ≠ 0 then ((Int.tdiv (Rat.floor q1) (Rat.floor q0) : ℤ) : ℚ) else 0)
        stack ds tid out hop rfl (fun _ _ => rfl) (fun _ _ => rfl) ?_ hrel hout
      intro env q0 q1 h1 h0
      simp only [evalCExpr, h1, h0]
      by_cases hz : q0 = 0
      · simp [hz]
      · simp [hz]
    | FMAX =>
      refine step_sim_three s cn eq t .FMAX .double (.maxE (.tmp tid) (.tmp (tid + 1)))
        (fun q0 q1 => max q1 q0) stack ds tid out hop rfl (fun _ _ => rfl) (fun _ _ => rfl)
        ?_ hrel hout
      intro env q0 q1 h1 h0
      simp only [evalCExpr, h1, h0]
    | READ_REG =>
      cases stack with
      | nil =>
        cases hrel
        left
        refine ⟨rpnStep_op_error s cn eq t .READ_REG _ _ hop rfl, ?_⟩
        simp [rpnDirectStep, hop, Op.argc]
      | cons v0 rest =>
        rcases hrel with _ | ⟨⟨hb0, he0⟩, hrel0⟩
        right
        rename_i q0 dsRest
        refine ⟨⟨.tmp tid :: rest, tid + 1, out ++ [⟨.uint64, tid, .lit 0⟩]⟩, 0 :: dsRest,
          ?_, ?_, ?_⟩
        · rw [rpnStep_op_ok s cn eq t .READ_REG ⟨v0 :: rest, tid, out⟩ [svOperand v0] rest hop
            (show popArgs s cn eq Op.READ_REG.argc (v0 :: rest) [] =
              Except.ok ([svOperand v0], rest) from popArgs_one s cn eq v0 rest tid hb0)]
          simp [emitOp]
        · simp only [rpnDirectStep, hop, Op.argc]
          rw [if_pos (by simp)]
          rfl
        · exact simInv_push_one .uint64 (.lit 0) 0 hrel0 hout rfl

theorem scan_sim (s : PerfSet) (cn eq : String) :
    ∀ (tokens : List String), (∀ t ∈ tokens, GoodToken t) →
    ∀ (st : CompSt) (ds : List ℚ), SimInv st ds →
    (tokens.foldlM (rpnStep s cn eq) st = .error .underflow ∧
      tokens.foldlM rpnDirectStep ds = none) ∨
    (∃ st' ds', tokens.foldlM (rpnStep s cn eq) st = .ok st' ∧
      tokens.foldlM rpnDirectStep ds = some ds' ∧ SimInv st' ds') := by
  intro tokens
  induction tokens with
  | nil =>
    intro _ st ds hinv
    right
    exact ⟨st, ds, rfl, rfl, hinv⟩
  | cons t ts ih =>
    intro hg st ds hinv
    rcases rpnStep_sim s cn eq t st ds hinv (hg t (List.mem_cons_self t ts)) with
      ⟨h1, h2⟩ | ⟨st', ds', h1, h2, hinv'⟩
    · left
      constructor
      · rw [List.foldlM_cons, h1]
        rfl
      · rw [List.foldlM_cons, h2]
        rfl
    · rcases ih (fun u hu => hg u (List.mem_cons_of_mem t hu)) st' ds' hinv' with
        ⟨g1, g2⟩ | ⟨st'', ds'', g1, g2, hinv''⟩
      · left
        constructor
        · rw [List.foldlM_cons, h1]
          exact g1
        · rw [List.foldlM_cons, h2]
          exact g2
      · right
        refine ⟨st'', ds'', ?_, ?_, hinv''⟩
        · rw [List.foldlM_cons, h1]
          exact g1
        · rw [List.foldlM_cons, h2]
          exact g2

/-- C1: for every equation whose tokens are numeric literals and supported
operator mnemonics (excluding `READ`, whose type operand is a C struct
field name rather than a numeric value, so it has no direct numeric
semantics), the emitted assignments followed by the final return statement,
executed from an all-zero environment, compute exactly the value of direct
stack evaluation of the equation as standard RPN under the stated operator
semantics — operand order preserved, division by zero yielding 0 — and the
compilation fails exactly when the direct evaluation is undefined. -/
theorem c1_compile_matches_direct (s : PerfSet) (cn eq : String) (hwf : s.WfKeys)
    (hg : ∀ t ∈ splitTokens eq, GoodToken t) :
    (∀ out ret, output_rpn_equation_code s cn eq = .ok (out, ret) →
      rpnDirectEval (splitTokens eq) = some (progValue out ret))
    ∧ (∀ e, output_rpn_equation_code s cn eq = .error e →
      rpnDirectEval (splitTokens eq) = none) := by
  have hinit : SimInv ⟨[], 0, []⟩ [] := ⟨List.Forall₂.nil, by intro stm h; cases h⟩
  rcases scan_sim s cn eq (splitTokens eq) hg ⟨[], 0, []⟩ [] hinit with
    ⟨h1, h2⟩ | ⟨st', ds', h1, h2, hinv'⟩
  · constructor
    · intro out ret hok
      rw [output_rpn_of_scan_error s cn eq _ h1] at hok
      cases hok
    · intro e _
      simp [rpnDirectEval, h2]
  · have hlen := hinv'.rel.length_eq
    by_cases hl : st'.stack.length = 1
    · obtain ⟨v, hv⟩ := List.length_eq_one.mp hl
      have hdl : ds'.length = 1 := by rw [← hlen, hl]
      obtain ⟨q, hq⟩ := List.length_eq_one.mp hdl
      have hrel := hinv'.rel
      rw [hv, hq] at hrel
      rcases hrel with _ | ⟨⟨hb, he⟩, _⟩
      constructor
      · intro out ret hok
        rw [output_rpn_of_scan_ok s cn eq st' h1, if_neg (by simp [hl])] at hok
        rw [hv] at hok
        simp only [List.headD_cons, Except.ok.injEq, Prod.mk.injEq] at hok
        obtain ⟨hout_eq, hret_eq⟩ := hok
        rw [← hout_eq, ← hret_eq]
        rw [finalSubst_eq_svOperand s hwf v st'.tmp_id hb]
        have : rpnDirectEval (splitTokens eq) = some q := by
          simp [rpnDirectEval, h2, hq]
        rw [this]
        congr 1
        exact he.symm
      · intro e herr
        rw [output_rpn_of_scan_ok s cn eq st' h1, if_neg (by simp [hl])] at herr
        cases herr
    · constructor
      · intro out ret hok
        rw [output_rpn_of_scan_ok s cn eq st' h1, if_pos hl] at hok
        cases hok
      · intro e _
        have hdl : ds'.length ≠ 1 := by rw [← hlen]; exact hl
        cases ds' with
        | nil => simp [rpnDirectEval, h2]
        | cons q rest =>
          cases rest with
          | nil => exact absurd rfl hdl
          | cons q' rest' => simp [rpnDirectEval, h2]

theorem c1_compile_matches_direct_witness :
    (output_rpn_equation_code ⟨"S", []⟩ "c" "10 3 USUB" =
      .ok ([⟨.uint64, 0, .sub (.opnd (.tok "10")) (.opnd (.tok "3"))⟩], .tmp 0))
    ∧ rpnDirectEval (splitTokens "10 3 USUB") =
        some (progValue [⟨.uint64, 0, .sub (.opnd (.tok "10")) (.opnd (.tok "3"))⟩] (.tmp 0))
    ∧ progValue [⟨.uint64, 0, .sub (.opnd (.tok "10")) (.opnd (.tok "3"))⟩] (.tmp 0) = 7
    ∧ (∃ out2 ret2, output_rpn_equation_code ⟨"S", []⟩ "c" "9 0 UDIV" = .ok (out2, ret2)
        ∧ rpnDirectEval (splitTokens "9 0 UDIV") = some (progValue out2 ret2)
        ∧ progValue out2 ret2 = 0)
    ∧ (∃ out3 ret3, output_rpn_equation_code ⟨"S", []⟩ "c" "9 0 FDIV" = .ok (out3, ret3)
        ∧ rpnDirectEval (splitTokens "9 0 FDIV") = some (progValue out3 ret3)
        ∧ progValue out3 ret3 = 0) := by
  have hwf : PerfSet.WfKeys ⟨"S", []⟩ := by
    intro p hp
    cases hp
  refine ⟨rfl, ?_, ?_, ?_, ?_⟩
  · exact (c1_compile_matches_direct ⟨"S", []⟩ "c" "10 3 USUB" hwf (by decide)).1 _ _ rfl
  · have hpv : progValue [⟨.uint64, 0, .sub (.opnd (.tok "10")) (.opnd (.tok "3"))⟩] (.tmp 0) =
        litValQ "10" - litValQ "3" := rfl
    rw [hpv]
    have h10 : tokenToNat "10" = some 10 := by decide
    have h3 : tokenToNat "3" = some 3 := by decide
    simp [litValQ, h10, h3]
    norm_num
  · refine ⟨_, _, rfl, (c1_compile_matches_direct ⟨"S", []⟩ "c" "9 0 UDIV" hwf (by decide)).1
      _ _ rfl, by decide⟩
  · refine ⟨_, _, rfl, (c1_compile_matches_direct ⟨"S", []⟩ "c" "9 0 FDIV" hwf (by decide)).1
      _ _ rfl, by decide⟩

/-! ## The memoized emission passes (perf-equations-codegen.py)

`generate_equations` walks all Generations, Sets and Counters twice: once
emitting function bodies into the `.c` stream (`output_counter_read`,
`output_counter_max`), once emitting prototypes or `#define` aliases into
the `.h` stream (`output_counter_read_definition`,
`output_counter_max_definition`), resetting the `hashed_funcs` table
between the passes.  The iteration is modelled as the flattened counter
list in generation/set/document order.  The C text of one function body or
prototype is abstracted into one event carrying the symbol and the hash
that produced it. -/

structure CounterInfo where
  symbol_name : String
  data_type : String
  max_equation : Option String
  read_hash : String
  max_hash : String
  read_sym : String
  max_sym : String
deriving DecidableEq, Repr

/-- Python truthiness of an optional XML attribute: `None` and the empty
string are falsy (`if not max_eq`). -/
def pyFalsy : Option String → Bool
  | none => true
  | some s => s.data.isEmpty

/-- `Counter.__init__` (codegen.py lines 49-57): the max symbol. -/
def counter_max_sym (chipset set_uname counter_uname : String)
    (max_eq : Option String) (data_type : String) : String :=
  if pyFalsy max_eq then "NULL /* undefined */"
  else if max_eq = some "100" then "percentage_max_callback_" ++ data_type
  else chipset ++ "__" ++ set_uname ++ "__" ++ counter_uname ++ "__max"

/-- One emitted item of the `.c` (definitions) stream: a full function
body, recorded with the hash under which it was memoized. -/
structure BodyEvent where
  sym : String
  hash : String
deriving DecidableEq, Repr

/-- One emitted item of the `.h` (declarations) stream: either a
prototype or a `#define sym target` alias. -/
inductive DeclEvent
  | proto (sym : String) (hash : String)
  | alias (sym target : String) (hash : String)
deriving DecidableEq, Repr

abbrev Memo := List (String × String)

def memoLookup (m : Memo) (h : String) : Option String :=
  (m.find? (fun p => p.1 == h)).map (·.2)

/-- `output_counter_read` (perf-equations-codegen.py lines 45-71). -/
def output_counter_read (m : Memo) (ci : CounterInfo) : Memo × List BodyEvent :=
  if (memoLookup m ci.read_hash).isSome then (m, [])
  else (m ++ [(ci.read_hash, ci.read_sym)], [⟨ci.read_sym, ci.read_hash⟩])

/-- `output_counter_max` (perf-equations-codegen.py lines 95-125). -/
def output_counter_max (m : Memo) (ci : CounterInfo) : Memo × List BodyEvent :=
  if pyFalsy ci.max_equation || (ci.max_equation == some "100") then (m, [])
  else if (memoLookup m ci.max_hash).isSome then (m, [])
  else (m ++ [(ci.max_hash, ci.max_sym)], [⟨ci.max_sym, ci.max_hash⟩])

/-- `output_counter_read_definition` (perf-equations-codegen.py lines
74-92). -/
def output_counter_read_definition (m : Memo) (ci : CounterInfo) : Memo × List DeclEvent :=
  match memoLookup m ci.read_hash with
  | some target => (m, [.alias ci.read_sym target ci.read_hash])
  | none => (m ++ [(ci.read_hash, ci.read_sym)], [.proto ci.read_sym ci.read_hash])

/-- `output_counter_max_definition` (perf-equations-codegen.py lines
128-153). -/
def output_counter_max_definition (m : Memo) (ci : CounterInfo) : Memo × List DeclEvent :=
  if pyFalsy ci.max_equation || (ci.max_equation == some "100") then (m, [])
  else
    match memoLookup m ci.max_hash with
    | some target => (m, [.alias ci.max_sym target ci.max_hash])
    | none => (m ++ [(ci.max_hash, ci.max_sym)], [.proto ci.max_sym ci.max_hash])

/-- One counter of the first (definitions) pass: read then max, threading
the shared `hashed_funcs` table. -/
def bodyStep (m : Memo) (ci : CounterInfo) : Memo × List BodyEvent :=
  let (m1, e1) := output_counter_read m ci
  let (m2, e2) := output_counter_max m1 ci
  (m2, e1 ++ e2)

def declStep (m : Memo) (ci : CounterInfo) : Memo × List DeclEvent :=
  let (m1, e1) := output_counter_read_definition m ci
  let (m2, e2) := output_counter_max_definition m1 ci
  (m2, e1 ++ e2)

def runPass {ev : Type} (step : Memo → CounterInfo → Memo × List ev) :
    Memo → List CounterInfo → Memo × List ev
  | m, [] => (m, [])
  | m, ci :: cs =>
    let (m1, e1) := step m ci
    let (m2, e2) := runPass step m1 cs
    (m2, e1 ++ e2)

/-- The definitions pass of `generate_equations` (lines 193-198),
starting from the freshly reset memo table. -/
def bodyPass (cs : List CounterInfo) : Memo × List BodyEvent :=
  runPass bodyStep [] cs

/-- The declarations pass of `generate_equations` (lines 223-228), after
`hashed_funcs = {}` is reset. -/
def declPass (cs : List CounterInfo) : Memo × List DeclEvent :=
  runPass declStep [] cs

/-- C7: a counter whose max-equation is exactly `"100"` never gets a
per-counter max body or declaration — both max emitters return with no
event and an unchanged memo table — and its max symbol is the shared
percentage-constant callback selected by the counter data type. -/
theorem c7_percentage_max_callback (chipset set_uname counter_uname dt : String)
    (ci : CounterInfo) (h : ci.max_equation = some "100") :
    counter_max_sym chipset set_uname counter_uname ci.max_equation dt =
      "percentage_max_callback_" ++ dt
    ∧ (∀ m : Memo, output_counter_max m ci = (m, []))
    ∧ (∀ m : Memo, output_counter_max_definition m ci = (m, [])) := by
  refine ⟨?_, ?_, ?_⟩
  · rw [h]
    rfl
  · intro m
    rw [output_counter_max, h]
    rfl
  · intro m
    rw [output_counter_max_definition, h]
    rfl

theorem c7_percentage_max_callback_witness :
    counter_max_sym "hsw" "render_basic" "gpu_busy"
      (CounterInfo.mk "GpuBusy" "uint64" (some "100") "rh" "mh" "rs" "ms").max_equation
      "uint64" = "percentage_max_callback_uint64"
    ∧ output_counter_max [("x", "y")]
        (CounterInfo.mk "GpuBusy" "uint64" (some "100") "rh" "mh" "rs" "ms") =
        ([("x", "y")], [])
    ∧ output_counter_max_definition [("x", "y")]
        (CounterInfo.mk "GpuBusy" "uint64" (some "100") "rh" "mh" "rs" "ms") =
        ([("x", "y")], []) := by
  obtain ⟨h1, h2, h3⟩ := c7_percentage_max_callback "hsw" "render_basic" "gpu_busy" "uint64"
    (CounterInfo.mk "GpuBusy" "uint64" (some "100") "rh" "mh" "rs" "ms") rfl
  refine ⟨by rw [h1]; decide, h2 [("x", "y")], h3 [("x", "y")]⟩

theorem runPass_cons {ev : Type} (step : Memo → CounterInfo → Memo × List ev)
    (m : Memo) (ci : CounterInfo) (cs : List CounterInfo) :
    runPass step m (ci :: cs) =
      ((runPass step (step m ci).1 cs).1,
        (step m ci).2 ++ (runPass step (step m ci).1 cs).2) := by
  simp only [runPass]

theorem memoLookup_nil (h : String) : memoLookup [] h = none := rfl

theorem memoLookup_cons (p : String × String) (m : Memo) (h : String) :
    memoLookup (p :: m) h = if p.1 == h then some p.2 else memoLookup m h := by
  by_cases hb : (p.1 == h) = true
  · simp [memoLookup, List.find?, hb]
  · simp only [Bool.not_eq_true] at hb
    simp [memoLookup, List.find?, hb]

theorem memoLookup_append_of_some {m Δ : Memo} {h x : String}
    (hx : memoLookup m h = some x) : memoLookup (m ++ Δ) h = some x := by
  induction m with
  | nil => simp [memoLookup_nil] at hx
  | cons p rest ih =>
    rw [List.cons_append, memoLookup_cons]
    rw [memoLookup_cons] at hx
    by_cases hb : (p.1 == h) = true
    · rw [if_pos hb] at hx ⊢
      exact hx
    · rw [if_neg hb] at hx ⊢
      exact ih hx

theorem memoLookup_none_of_append {m Δ : Memo} {h : String}
    (hx : memoLookup (m ++ Δ) h = none) : memoLookup m h = none := by
  rcases he : memoLookup m h with _ | x
  · rfl
  · rw [memoLookup_append_of_some he] at hx
    cases hx

theorem memoLookup_append_single {m : Memo} {k v h sym : String}
    (hx : memoLookup (m ++ [(k, v)]) h = some sym) :
    memoLookup m h = some sym ∨ (memoLookup m h = none ∧ k = h ∧ v = sym) := by
  induction m with
  | nil =>
    right
    rw [List.nil_append, memoLookup_cons] at hx
    by_cases hb : (k == h) = true
    · rw [if_pos hb] at hx
      refine ⟨rfl, by simpa using hb, by simpa using hx⟩
    · rw [if_neg hb] at hx
      rw [memoLookup_nil] at hx
      cases hx
  | cons p rest ih =>
    rw [List.cons_append, memoLookup_cons] at hx
    rw [memoLookup_cons]
    by_cases hb : (p.1 == h) = true
    · rw [if_pos hb] at hx ⊢
      left
      exact hx
    · rw [if_neg hb] at hx ⊢
      exact ih hx

theorem bodyStep_eq (m : Memo) (ci : CounterInfo) :
    bodyStep m ci = ((output_counter_max (output_counter_read m ci).1 ci).1,
      (output_counter_read m ci).2 ++ (output_counter_max (output_counter_read m ci).1 ci).2) :=
  rfl

theorem declStep_eq (m : Memo) (ci : CounterInfo) :
    declStep m ci = ((output_counter_max_definition (output_counter_read_definition m ci).1 ci).1,
      (output_counter_read_definition m ci).2 ++
        (output_counter_max_definition (output_counter_read_definition m ci).1 ci).2) :=
  rfl

/-- The `.c` and `.h` passes update the memo table identically per read
sub-step. -/
theorem read_memo_eq (m : Memo) (ci : CounterInfo) :
    (output_counter_read_definition m ci).1 = (output_counter_read m ci).1 := by
  unfold output_counter_read output_counter_read_definition
  rcases h : memoLookup m ci.read_hash with _ | tgt
  · simp [h]
  · simp [h]

theorem max_memo_eq (m : Memo) (ci : CounterInfo) :
    (output_counter_max_definition m ci).1 = (output_counter_max m ci).1 := by
  unfold output_counter_max output_counter_max_definition
  by_cases hg : (pyFalsy ci.max_equation || (ci.max_equation == some "100")) = true
  · simp [hg]
  · rcases h : memoLookup m ci.max_hash with _ | tgt
    · simp [hg, h]
    · simp [hg, h]

theorem stepMemo_eq (m : Memo) (ci : CounterInfo) :
    (declStep m ci).1 = (bodyStep m ci).1 := by
  rw [bodyStep_eq, declStep_eq]
  rw [read_memo_eq, max_memo_eq]

/-- Memo growth of the read sub-step. -/
theorem read_extends (m : Memo) (ci : CounterInfo) :
    ∃ Δ, (output_counter_read m ci).1 = m ++ Δ := by
  unfold output_counter_read
  by_cases h : (memoLookup m ci.read_hash).isSome = true
  · exact ⟨[], by simp [h]⟩
  · exact ⟨[(ci.read_hash, ci.read_sym)], by simp [h]⟩

theorem max_extends (m : Memo) (ci : CounterInfo) :
    ∃ Δ, (output_counter_max m ci).1 = m ++ Δ := by
  unfold output_counter_max
  by_cases hg : (pyFalsy ci.max_equation || (ci.max_equation == some "100")) = true
  · exact ⟨[], by simp [hg]⟩
  · by_cases h : (memoLookup m ci.max_hash).isSome = true
    · exact ⟨[], by simp [hg, h]⟩
    · exact ⟨[(ci.max_hash, ci.max_sym)], by simp [hg, h]⟩

theorem bodyStep_extends (m : Memo) (ci : CounterInfo) :
    ∃ Δ, (bodyStep m ci).1 = m ++ Δ := by
  rw [bodyStep_eq]
  obtain ⟨Δ1, h1⟩ := read_extends m ci
  obtain ⟨Δ2, h2⟩ := max_extends (output_counter_read m ci).1 ci
  exact ⟨Δ1 ++ Δ2, by rw [h2, h1, List.append_assoc]⟩

theorem runPass_bodyStep_extends : ∀ (cs : List CounterInfo) (m : Memo),
    ∃ Δ, (runPass bodyStep m cs).1 = m ++ Δ := by
  intro cs
  induction cs with
  | nil => exact fun m => ⟨[], by simp [runPass]⟩
  | cons ci cs ih =>
    intro m
    rw [runPass_cons]
    obtain ⟨Δ1, h1⟩ := bodyStep_extends m ci
    obtain ⟨Δ2, h2⟩ := ih (bodyStep m ci).1
    refine ⟨Δ1 ++ Δ2, ?_⟩
    show (runPass bodyStep (bodyStep m ci).1 cs).1 = m ++ (Δ1 ++ Δ2)
    rw [h2, h1, List.append_assoc]

theorem memoLookup_append_self {m : Memo} {h v : String} (hn : memoLookup m h = none) :
    memoLookup (m ++ [(h, v)]) h = some v := by
  induction m with
  | nil => simp [memoLookup_cons, memoLookup_nil]
  | cons p rest ih =>
    rw [memoLookup_cons] at hn
    rw [List.cons_append, memoLookup_cons]
    by_cases hb : (p.1 == h) = true
    · rw [if_pos hb] at hn
      cases hn
    · rw [if_neg hb] at hn ⊢
      exact ih hn

/-- Freshness/recording of one emission sub-step: every emitted body was
not memoized before the sub-step and is memoized after it, and the
sub-step's own bodies carry distinct hashes. -/
def FreshRecorded (m m' : Memo) (evs : List BodyEvent) : Prop :=
  (∀ e ∈ evs, memoLookup m e.hash = none) ∧
  (∀ e ∈ evs, memoLookup m' e.hash ≠ none) ∧
  (evs.map BodyEvent.hash).Nodup

theorem freshRecorded_nil (m m' : Memo) : FreshRecorded m m' [] :=
  ⟨fun _ h => absurd h (List.not_mem_nil _), fun _ h => absurd h (List.not_mem_nil _),
    List.nodup_nil⟩

theorem freshRecorded_compose {m m1 m2 : Memo} {e1 e2 : List BodyEvent}
    (f1 : FreshRecorded m m1 e1) (f2 : FreshRecorded m1 m2 e2)
    (x1 : ∃ Δ, m1 = m ++ Δ) (x2 : ∃ Δ, m2 = m1 ++ Δ) :
    FreshRecorded m m2 (e1 ++ e2) := by
  obtain ⟨Δ1, hΔ1⟩ := x1
  obtain ⟨Δ2, hΔ2⟩ := x2
  refine ⟨?_, ?_, ?_⟩
  · intro e he
    rcases List.mem_append.mp he with h | h
    · exact f1.1 e h
    · have := f2.1 e h
      rw [hΔ1] at this
      exact memoLookup_none_of_append this
  · intro e he
    rcases List.mem_append.mp he with h | h
    · have := f1.2.1 e h
      rcases hx : memoLookup m1 e.hash with _ | x
      · exact absurd hx this
      · rw [hΔ2, memoLookup_append_of_some hx]
        simp
    · exact f2.2.1 e h
  · rw [List.map_append]
    refine List.Nodup.append f1.2.2 f2.2.2 ?_
    intro a ha1 ha2
    obtain ⟨u, hu, hua⟩ := List.mem_map.mp ha1
    obtain ⟨w, hw, hwa⟩ := List.mem_map.mp ha2
    have hrec := f1.2.1 u hu
    have hfr := f2.1 w hw
    rw [hwa] at hfr
    rw [hua] at hrec
    rw [← hfr] at hrec
    exact hrec rfl

theorem read_freshRecorded (m : Memo) (ci : CounterInfo) :
    FreshRecorded m (output_counter_read m ci).1 (output_counter_read m ci).2 := by
  unfold output_counter_read
  by_cases h : (memoLookup m ci.read_hash).isSome = true
  · simp only [h, if_true]
    exact freshRecorded_nil m m
  · simp only [h, Bool.false_eq_true, if_false]
    have hn : memoLookup m ci.read_hash = none := by
      rcases hx : memoLookup m ci.read_hash with _ | x
      · rfl
      · rw [hx] at h
        simp at h
    refine ⟨?_, ?_, by simp⟩
    · intro e he
      rw [List.mem_singleton] at he
      subst he
      exact hn
    · intro e he
      rw [List.mem_singleton] at he
      subst he
      rw [memoLookup_append_self hn]
      simp

theorem max_freshRecorded (m : Memo) (ci : CounterInfo) :
    FreshRecorded m (output_counter_max m ci).1 (output_counter_max m ci).2 := by
  unfold output_counter_max
  by_cases hg : (pyFalsy ci.max_equation || (ci.max_equation == some "100")) = true
  · simp only [hg, if_true]
    exact freshRecorded_nil m m
  · simp only [hg, Bool.false_eq_true, if_false]
    by_cases h : (memoLookup m ci.max_hash).isSome = true
    · simp only [h, if_true]
      exact freshRecorded_nil m m
    · simp only [h, Bool.false_eq_true, if_false]
      have hn : memoLookup m ci.max_hash = none := by
        rcases hx : memoLookup m ci.max_hash with _ | x
        · rfl
        · rw [hx] at h
          simp at h
      refine ⟨?_, ?_, by simp⟩
      · intro e he
        rw [List.mem_singleton] at he
        subst he
        exact hn
      · intro e he
        rw [List.mem_singleton] at he
        subst he
        rw [memoLookup_append_self hn]
        simp

theorem bodyStep_freshRecorded (m : Memo) (ci : CounterInfo) :
    FreshRecorded m (bodyStep m ci).1 (bodyStep m ci).2 := by
  rw [bodyStep_eq]
  exact freshRecorded_compose (read_freshRecorded m ci)
    (max_freshRecorded (output_counter_read m ci).1 ci)
    (read_extends m ci) (max_extends (output_counter_read m ci).1 ci)

theorem bodyPass_freshRecorded : ∀ (cs : List CounterInfo) (m : Memo),
    FreshRecorded m (runPass bodyStep m cs).1 (runPass bodyStep m cs).2 := by
  intro cs
  induction cs with
  | nil => exact fun m => freshRecorded_nil m m
  | cons ci cs ih =>
    intro m
    rw [runPass_cons]
    exact freshRecorded_compose (bodyStep_freshRecorded m ci) (ih (bodyStep m ci).1)
      (bodyStep_extends m ci) (runPass_bodyStep_extends cs (bodyStep m ci).1)

/-- Every memoized symbol is the symbol of an already-emitted body with
that hash. -/
def MemoCovered (m : Memo) (E : List BodyEvent) : Prop :=
  ∀ h sym, memoLookup m h = some sym → BodyEvent.mk sym h ∈ E

theorem memoCovered_nil (E : List BodyEvent) : MemoCovered [] E := by
  intro h sym hx
  rw [memoLookup_nil] at hx
  cases hx

theorem memoCovered_mono {m : Memo} {E E' : List BodyEvent} (h : MemoCovered m E) :
    MemoCovered m (E ++ E') := fun hh sym hx => List.mem_append_left E' (h hh sym hx)

theorem read_covered {m : Memo} {E : List BodyEvent} (hc : MemoCovered m E)
    (ci : CounterInfo) :
    MemoCovered (output_counter_read m ci).1 (E ++ (output_counter_read m ci).2) := by
  unfold output_counter_read
  by_cases h : (memoLookup m ci.read_hash).isSome = true
  · simp only [h, if_true]
    exact memoCovered_mono hc
  · simp only [h, Bool.false_eq_true, if_false]
    intro hh sym hx
    rcases memoLookup_append_single hx with hold | ⟨_, hk, hv⟩
    · exact List.mem_append_left _ (hc hh sym hold)
    · subst hk
      subst hv
      exact List.mem_append_right E (List.mem_singleton_self _)

theorem max_covered {m : Memo} {E : List BodyEvent} (hc : MemoCovered m E)
    (ci : CounterInfo) :
    MemoCovered (output_counter_max m ci).1 (E ++ (output_counter_max m ci).2) := by
  unfold output_counter_max
  by_cases hg : (pyFalsy ci.max_equation || (ci.max_equation == some "100")) = true
  · simp only [hg, if_true]
    exact memoCovered_mono hc
  · simp only [hg, Bool.false_eq_true, if_false]
    by_cases h : (memoLookup m ci.max_hash).isSome = true
    · simp only [h, if_true]
      exact memoCovered_mono hc
    · simp only [h, Bool.false_eq_true, if_false]
      intro hh sym hx
      rcases memoLookup_append_single hx with hold | ⟨_, hk, hv⟩
      · exact List.mem_append_left _ (hc hh sym hold)
      · subst hk
        subst hv
        exact List.mem_append_right E (List.mem_singleton_self _)

theorem bodyStep_covered {m : Memo} {E : List BodyEvent} (hc : MemoCovered m E)
    (ci : CounterInfo) :
    MemoCovered (bodyStep m ci).1 (E ++ (bodyStep m ci).2) := by
  rw [bodyStep_eq]
  have h1 := read_covered hc ci
  have h2 := max_covered h1 ci
  show MemoCovered (output_counter_max (output_counter_read m ci).1 ci).1 _
  rw [← List.append_assoc]
  exact h2

/-- Aliases of the read declaration sub-step point at the symbol memoized
for the read hash before the sub-step. -/
theorem read_def_alias {m : Memo} {ci : CounterInfo} {sym tgt h : String}
    (he : DeclEvent.alias sym tgt h ∈ (output_counter_read_definition m ci).2) :
    memoLookup m h = some tgt := by
  unfold output_counter_read_definition at he
  rcases hx : memoLookup m ci.read_hash with _ | target
  · rw [hx] at he
    simp at he
  · rw [hx] at he
    simp only [List.mem_singleton, DeclEvent.alias.injEq] at he
    obtain ⟨_, h2, h3⟩ := he
    rw [← h3] at hx
    rw [h2]
    exact hx

theorem max_def_alias {m : Memo} {ci : CounterInfo} {sym tgt h : String}
    (he : DeclEvent.alias sym tgt h ∈ (output_counter_max_definition m ci).2) :
    memoLookup m h = some tgt := by
  unfold output_counter_max_definition at he
  by_cases hg : (pyFalsy ci.max_equation || (ci.max_equation == some "100")) = true
  · rw [hg] at he
    simp at he
  · simp only [Bool.not_eq_true] at hg
    rw [hg] at he
    rcases hx : memoLookup m ci.max_hash with _ | target
    · rw [hx] at he
      simp at he
    · rw [hx] at he
      simp only [Bool.false_eq_true, if_false, List.mem_singleton, DeclEvent.alias.injEq] at he
      obtain ⟨_, h2, h3⟩ := he
      rw [← h3] at hx
      rw [h2]
      exact hx

/-- Every alias of the declarations pass points at the symbol of a body
emitted by the definitions pass under the same hash. -/
theorem declPass_align : ∀ (cs : List CounterInfo) (m : Memo) (E : List BodyEvent),
    MemoCovered m E →
    ∀ sym tgt h, DeclEvent.alias sym tgt h ∈ (runPass declStep m cs).2 →
      BodyEvent.mk tgt h ∈ E ++ (runPass bodyStep m cs).2 := by
  intro cs
  induction cs with
  | nil =>
    intro m E _ sym tgt h he
    simp [runPass] at he
  | cons ci cs ih =>
    intro m E hc sym tgt h he
    rw [runPass_cons] at he
    rw [runPass_cons]
    rcases List.mem_append.mp he with h1 | h1
    · rw [declStep_eq] at h1
      rcases List.mem_append.mp h1 with h2 | h2
      · have := read_def_alias h2
        exact List.mem_append_left _ (hc h tgt this)
      · have hmem := max_def_alias h2
        rw [read_memo_eq] at hmem
        have hcov := read_covered hc ci
        have hb := hcov h tgt hmem
        rw [bodyStep_eq]
        rcases List.mem_append.mp hb with h3 | h3
        · exact List.mem_append_left _ h3
        · refine List.mem_append_right E ?_
          exact List.mem_append_left _ (List.mem_append_left _ h3)
    · have hc' : MemoCovered (declStep m ci).1 (E ++ (bodyStep m ci).2) := by
        rw [stepMemo_eq]
        exact bodyStep_covered hc ci
      have := ih (declStep m ci).1 (E ++ (bodyStep m ci).2) hc' sym tgt h h1
      rw [stepMemo_eq] at this
      rw [List.append_assoc] at this
      rcases List.mem_append.mp this with h3 | h3
      · exact List.mem_append_left _ h3
      · exact List.mem_append_right E h3

/-- C3: within one emission pass over all generations, at most one
function body is emitted per equation hash (the mapped hash list of the
definitions stream has no duplicate); every alias of the declarations
stream points at the symbol of the body emitted for the same hash (the
first counter with that hash); and a counter whose read hash is already
memoized contributes no body and leaves the memo unchanged. -/
theorem c3_memoized_unique_bodies :
    (∀ (cs : List CounterInfo) (h : String),
      (((bodyPass cs).2).map BodyEvent.hash).count h ≤ 1)
    ∧ (∀ (cs : List CounterInfo) (sym tgt h : String),
        DeclEvent.alias sym tgt h ∈ (declPass cs).2 →
        BodyEvent.mk tgt h ∈ (bodyPass cs).2)
    ∧ (∀ (m : Memo) (ci : CounterInfo), (memoLookup m ci.read_hash).isSome = true →
        output_counter_read m ci = (m, [])) := by
  refine ⟨?_, ?_, ?_⟩
  · intro cs h
    exact List.nodup_iff_count_le_one.mp (bodyPass_freshRecorded cs []).2.2 h
  · intro cs sym tgt h he
    have := declPass_align cs [] [] (memoCovered_nil []) sym tgt h he
    simpa using this
  · intro m ci h
    simp [output_counter_read, h]

theorem c3_memoized_unique_bodies_witness :
    (DeclEvent.alias "readB" "readA" "H" ∈
      (declPass [CounterInfo.mk "A" "uint64" none "H" "" "readA" "NULL",
        CounterInfo.mk "B" "uint64" none "H" "" "readB" "NULL"]).2)
    ∧ BodyEvent.mk "readA" "H" ∈
      (bodyPass [CounterInfo.mk "A" "uint64" none "H" "" "readA" "NULL",
        CounterInfo.mk "B" "uint64" none "H" "" "readB" "NULL"]).2
    ∧ ((bodyPass [CounterInfo.mk "A" "uint64" none "H" "" "readA" "NULL",
        CounterInfo.mk "B" "uint64" none "H" "" "readB" "NULL"]).2.map
          BodyEvent.hash).count "H" ≤ 1
    ∧ (memoLookup [("H", "readA")]
        (CounterInfo.mk "B" "uint64" none "H" "" "readB" "NULL").read_hash).isSome = true
    ∧ output_counter_read [("H", "readA")]
        (CounterInfo.mk "B" "uint64" none "H" "" "readB" "NULL") = ([("H", "readA")], []) := by
  refine ⟨by decide, ?_, ?_, by decide, ?_⟩
  · exact c3_memoized_unique_bodies.2.1 _ "readB" "readA" "H" (by decide)
  · exact c3_memoized_unique_bodies.1 _ "H"
  · exact c3_memoized_unique_bodies.2.2 [("H", "readA")] _ (by decide)

/-! ## perf-metricset-codegen.py: counter emission order

`generate_metric_sets` (line 112) sorts each set's counters with
`sorted(set.counters, key=lambda k: k.get('symbol_name'))` and emits one
logical-counter record per counter by iterating the sorted list (lines
196-197).  Python `sorted` is a stable sort under case-sensitive string
`<`; with pairwise-distinct keys every stable sort by the same key yields
the same list, so the stable `List.insertionSort` models it. -/

structure MCounter where
  symbol_name : String
  name : String
deriving DecidableEq, Repr

def sortCounters (cs : List MCounter) : List MCounter :=
  cs.insertionSort (fun a b => a.symbol_name ≤ b.symbol_name)

/-- The symbol names of the per-counter records, in emission order. -/
def emittedRecordOrder (cs : List MCounter) : List String :=
  (sortCounters cs).map MCounter.symbol_name

theorem sortCounters_sorted_le (cs : List MCounter) :
    List.Sorted (fun a b : MCounter => a.symbol_name ≤ b.symbol_name) (sortCounters cs) := by
  haveI : IsTotal MCounter (fun a b => a.symbol_name ≤ b.symbol_name) :=
    ⟨fun a b => le_total a.symbol_name b.symbol_name⟩
  haveI : IsTrans MCounter (fun a b => a.symbol_name ≤ b.symbol_name) :=
    ⟨fun _ _ _ h1 h2 => le_trans h1 h2⟩
  exact List.sorted_insertionSort _ cs

theorem sortCounters_strict (cs : List MCounter)
    (hnd : (cs.map MCounter.symbol_name).Nodup) :
    List.Pairwise (fun a b : MCounter => a.symbol_name < b.symbol_name) (sortCounters cs) := by
  have hle := sortCounters_sorted_le cs
  have hperm : List.Perm ((sortCounters cs).map MCounter.symbol_name)
      (cs.map MCounter.symbol_name) :=
    (List.perm_insertionSort _ cs).map _
  have hnd' : ((sortCounters cs).map MCounter.symbol_name).Nodup := hperm.nodup_iff.mpr hnd
  have hne : List.Pairwise (fun a b : MCounter => a.symbol_name ≠ b.symbol_name)
      (sortCounters cs) := List.pairwise_map.mp hnd'
  exact (List.Pairwise.and hle hne).imp (fun h => lt_of_le_of_ne h.1 h.2)

/-- C9: with pairwise-distinct (case-sensitively) symbol names, the
per-counter records are emitted in strictly ascending case-sensitive
lexical order of symbol name, and the emitted list is the same for every
permutation of the input counter list. -/
theorem c9_records_sorted :
    (∀ cs : List MCounter, (cs.map MCounter.symbol_name).Nodup →
      List.Pairwise (· < ·) (emittedRecordOrder cs))
    ∧ (∀ cs cs' : List MCounter, (cs.map MCounter.symbol_name).Nodup → cs.Perm cs' →
      sortCounters cs = sortCounters cs') := by
  constructor
  · intro cs hnd
    exact List.pairwise_map.mpr (sortCounters_strict cs hnd)
  · intro cs cs' hnd hperm
    have hnd2 : (cs'.map MCounter.symbol_name).Nodup := (hperm.map _).nodup_iff.mp hnd
    haveI : IsAntisymm MCounter (fun a b => a.symbol_name < b.symbol_name) :=
      ⟨fun a b h1 h2 => absurd (lt_trans h1 h2) (lt_irrefl _)⟩
    refine List.eq_of_perm_of_sorted ?_ (sortCounters_strict cs hnd)
      (sortCounters_strict cs' hnd2)
    exact ((List.perm_insertionSort _ cs).trans hperm).trans
      (List.perm_insertionSort _ cs').symm

theorem c9_records_sorted_witness :
    (([MCounter.mk "gpubusy" "n1", MCounter.mk "GPUBusy" "n2",
        MCounter.mk "GpuBusy" "n3"].map MCounter.symbol_name).Nodup)
    ∧ List.Pairwise (· < ·) (emittedRecordOrder
        [MCounter.mk "gpubusy" "n1", MCounter.mk "GPUBusy" "n2", MCounter.mk "GpuBusy" "n3"])
    ∧ ([MCounter.mk "gpubusy" "n1", MCounter.mk "GPUBusy" "n2",
          MCounter.mk "GpuBusy" "n3"].Perm
        [MCounter.mk "GpuBusy" "n3", MCounter.mk "gpubusy" "n1", MCounter.mk "GPUBusy" "n2"])
    ∧ sortCounters [MCounter.mk "gpubusy" "n1", MCounter.mk "GPUBusy" "n2",
          MCounter.mk "GpuBusy" "n3"] =
        sortCounters [MCounter.mk "GpuBusy" "n3", MCounter.mk "gpubusy" "n1",
          MCounter.mk "GPUBusy" "n2"] := by
  refine ⟨by decide, ?_, by decide, ?_⟩
  · exact c9_records_sorted.1 _ (by decide)
  · exact c9_records_sorted.2 _ _ (by decide) (by decide)

/-! ## `Counter.compute_hashes` (codegen.py lines 62-79)

Counters are modelled by index into the set's counter list; the mutable
`read_hash` / `max_hash` fields become the `HashSt` state.  The Python
recursion has no termination guard, so the model takes a fuel parameter:
`none` means the fuel ran out, which on a fixed input happens for every
fuel exactly when the Python recursion is unbounded.  `replaceTokensF`
takes the recursive call as a function argument so that everything is
structural and the kernel can evaluate it. -/

structure CounterX where
  symbol_name : String
  equation : String
  max_equation : Option String
deriving DecidableEq, Repr

structure SetX where
  counters : List CounterX
deriving DecidableEq, Repr

structure HashSt where
  read : List (Option String)
  maxh : List (Option String)
deriving DecidableEq, Repr

/-- `' '.join` -/
def joinSpace : List String → String
  | [] => ""
  | [t] => t
  | t :: ts => t ++ " " ++ joinSpace ts

/-- The counter (index) a token refers to: `token[0] == "$"` and
`token in counter_vars`, whose keys are `"$" + symbol_name`.  Symbol
names are unique within a set, so the first match is the dictionary
entry. -/
def refIdxAux (tok : String) : List CounterX → Option Nat
  | [] => none
  | c :: cs =>
    if ("$" ++ c.symbol_name) == tok then some 0
    else (refIdxAux tok cs).map (· + 1)

def refIdx (s : SetX) (tok : String) : Option Nat :=
  if startsDollar tok then refIdxAux tok s.counters else none

def eqnOf (s : SetX) (i : Nat) : String :=
  (s.counters.getD i ⟨"", "", none⟩).equation

/-- Counter `i` read-references counter `j`: a token of `i`'s read
equation resolves to `j`. -/
def readRef (s : SetX) (i j : Nat) : Prop :=
  ∃ t ∈ splitTokens (eqnOf s i), refIdx s t = some j

/-- The stateful `map(replace_func, eq.split())`: tokens are processed
left to right; a counter-reference token first runs the referenced
counter's `compute_hashes` (the `rec` argument) and then reads its
`read_hash`. -/
def replaceTokensF (rec : Nat → HashSt → Option HashSt) (s : SetX) :
    List String → HashSt → Option (HashSt × List String)
  | [], st => some (st, [])
  | t :: ts, st =>
    match refIdx s t with
    | none =>
      (replaceTokensF rec s ts st).map (fun p => (p.1, t :: p.2))
    | some j => do
      let st1 ← rec j st
      let h := ((st1.read.getD j none).getD "")
      let (st2, rs) ← replaceTokensF rec s ts st1
      some (st2, h :: rs)

/-- `Counter.compute_hashes` for counter `i`, with fuel. -/
def computeHashes (s : SetX) : Nat → Nat → HashSt → Option HashSt
  | 0, _, _ => none
  | fuel + 1, i, st =>
    match s.counters.get? i with
    | none => some st
    | some c =>
      if (st.read.getD i none).isSome then some st
      else do
        let (st1, toks1) ← replaceTokensF (computeHashes s fuel) s
          (splitTokens c.equation) st
        let st2 : HashSt := ⟨st1.read.set i (some (joinSpace toks1)), st1.maxh⟩
        if pyFalsy c.max_equation then some st2
        else do
          let (st3, toks2) ← replaceTokensF (computeHashes s fuel) s
            (splitTokens (c.max_equation.getD "")) st2
          some ⟨st3.read, st3.maxh.set i (some (joinSpace toks2))⟩

def initSt (s : SetX) : HashSt :=
  ⟨List.replicate s.counters.length none, List.replicate s.counters.length none⟩

/-- The `Set.__init__` loop (codegen.py lines 100-101): run
`compute_hashes` for every counter in order. -/
def computeAllHashes (s : SetX) (fuel : Nat) : Option HashSt :=
  (List.range s.counters.length).foldlM (fun st i => computeHashes s fuel i st) (initSt s)

/-- The pure substitution semantics of `compute_hashes` (spec side):
replace every counter-reference token by the referenced counter's own
recursively substituted hash, with fuel. -/
def specHashF (s : SetX) : Nat → Nat → Option String
  | 0, _ => none
  | fuel + 1, i =>
    match s.counters.get? i with
    | none => none
    | some c =>
      ((splitTokens c.equation).mapM (fun t =>
        match refIdx s t with
        | none => some t
        | some j => specHashF s fuel j)).map joinSpace

example :
    computeAllHashes ⟨[⟨"A", "$B 2 UADD", none⟩, ⟨"B", "3 4 UADD", none⟩]⟩ 5 =
      some ⟨[some "3 4 UADD 2 UADD", some "3 4 UADD"], [none, none]⟩ := by
  decide

example :
    computeHashes ⟨[⟨"A", "$A", none⟩]⟩ 7 0 (initSt ⟨[⟨"A", "$A", none⟩]⟩) = none := by
  decide

theorem getD_set_ne {α : Type} (l : List α) (k i : Nat) (v : α) (d : α) (hne : i ≠ k) :
    (l.set k v).getD i d = l.getD i d := by
  rw [List.getD_eq_getElem?_getD, List.getD_eq_getElem?_getD,
    List.getElem?_set_ne (fun h => hne h.symm)]

theorem getD_set_self {α : Type} (l : List α) (k : Nat) (v : α) (d : α)
    (hk : k < l.length) : (l.set k v).getD k d = v := by
  rw [List.getD_eq_getElem?_getD, List.getElem?_set_self hk]
  rfl

/-! ### Divergence on read-reference cycles

`InvC C st`: no member of the cycle set `C` has its read hash assigned.
If every member of `C` read-references a member of `C`, computing any
member from such a state runs out of any amount of fuel: the model of the
unbounded Python recursion. -/

def InvC (C : List Nat) (st : HashSt) : Prop :=
  ∀ i ∈ C, st.read.getD i none = none

theorem rtA {s : SetX} {C : List Nat} (f : Nat)
    (hA : ∀ k st, InvC C st → computeHashes s f k st = none ∨
      ∃ st', computeHashes s f k st = some st' ∧ InvC C st') :
    ∀ (toks : List String) (st : HashSt), InvC C st →
      replaceTokensF (computeHashes s f) s toks st = none ∨
      ∃ st' toks', replaceTokensF (computeHashes s f) s toks st = some (st', toks') ∧
        InvC C st' := by
  intro toks
  induction toks with
  | nil =>
    intro st h
    right
    exact ⟨st, [], rfl, h⟩
  | cons t ts ih =>
    intro st h
    cases hr : refIdx s t with
    | none =>
      rcases ih st h with hnone | ⟨st', toks', heq, hinv⟩
      · left
        simp [replaceTokensF, hr, hnone]
      · right
        exact ⟨st', t :: toks', by simp [replaceTokensF, hr, heq], hinv⟩
    | some j =>
      rcases hA j st h with hnone | ⟨st1, heq1, hinv1⟩
      · left
        simp only [replaceTokensF, hr, hnone]
        rfl
      · rcases ih st1 hinv1 with hnone2 | ⟨st2, toks2, heq2, hinv2⟩
        · left
          simp only [replaceTokensF, hr, heq1]
          simp [hnone2]
        · right
          refine ⟨st2, ((st1.read.getD j none).getD "") :: toks2, ?_, hinv2⟩
          simp only [replaceTokensF, hr, heq1]
          simp [heq2]

theorem rtFail {s : SetX} {C : List Nat} (f : Nat)
    (hA : ∀ k st, InvC C st → computeHashes s f k st = none ∨
      ∃ st', computeHashes s f k st = some st' ∧ InvC C st')
    (hB : ∀ i ∈ C, ∀ st, InvC C st → computeHashes s f i st = none) :
    ∀ (toks : List String) (st : HashSt), InvC C st →
      (∃ t ∈ toks, ∃ j ∈ C, refIdx s t = some j) →
      replaceTokensF (computeHashes s f) s toks st = none := by
  intro toks
  induction toks with
  | nil =>
    intro st _ hex
    obtain ⟨t, ht, _⟩ := hex
    exact absurd ht (List.not_mem_nil t)
  | cons t ts ih =>
    intro st h hex
    obtain ⟨t', ht', j', hj', hr'⟩ := hex
    rcases List.mem_cons.mp ht' with heq | hmem
    · subst heq
      simp only [replaceTokensF, hr']
      rw [hB j' hj' st h]
      rfl
    · cases hr : refIdx s t with
      | none =>
        simp only [replaceTokensF, hr]
        rw [ih st h ⟨t', hmem, j', hj', hr'⟩]
        rfl
      | some j =>
        rcases hA j st h with hnone | ⟨st1, heq1, hinv1⟩
        · simp only [replaceTokensF, hr, hnone]
          rfl
        · simp only [replaceTokensF, hr, heq1]
          simp [ih st1 hinv1 ⟨t', hmem, j', hj', hr'⟩]

theorem cycle_step_dichotomy {s : SetX} {C : List Nat}
    (hCn : ∀ i ∈ C, i < s.counters.length)
    (hadj : ∀ i ∈ C, ∃ t ∈ splitTokens (eqnOf s i), ∃ j ∈ C, refIdx s t = some j) :
    ∀ fuel,
      (∀ k st, InvC C st → computeHashes s fuel k st = none ∨
        ∃ st', computeHashes s fuel k st = some st' ∧ InvC C st')
      ∧ (∀ i ∈ C, ∀ st, InvC C st → computeHashes s fuel i st = none) := by
  intro fuel
  induction fuel with
  | zero =>
    constructor
    · intro k st _
      left
      rfl
    · intro i _ st _
      rfl
  | succ f ihf =>
    obtain ⟨ihA, ihB⟩ := ihf
    have hB : ∀ i ∈ C, ∀ st, InvC C st → computeHashes s (f + 1) i st = none := by
      intro i hi st h
      have hin : i < s.counters.length := hCn i hi
      have hget : s.counters.get? i = some (s.counters.getD i ⟨"", "", none⟩) := by
        rw [List.getD_eq_getElem?_getD, List.getElem?_eq_getElem hin]
        rw [← List.getElem?_eq_getElem hin]
        cases hx : s.counters[i]? with
        | none => rw [List.getElem?_eq_none_iff] at hx; omega
        | some c => simp [List.get?_eq_getElem?, hx]
      have hguard : (st.read.getD i none).isSome = false := by
        rw [h i hi]
        rfl
      obtain ⟨t, ht, j, hj, hr⟩ := hadj i hi
      have hfail := rtFail f ihA ihB (splitTokens (eqnOf s i)) st h ⟨t, ht, j, hj, hr⟩
      simp only [computeHashes, hget, hguard, Bool.false_eq_true, if_false]
      rw [show (s.counters.getD i ⟨"", "", none⟩).equation = eqnOf s i from rfl, hfail]
      rfl
    refine ⟨?_, hB⟩
    intro k st h
    by_cases hk : k ∈ C
    · left
      exact hB k hk st h
    · cases hget : s.counters.get? k with
      | none =>
        right
        refine ⟨st, ?_, h⟩
        simp only [computeHashes, hget]
      | some c =>
        by_cases hs : (st.read.getD k none).isSome = true
        · right
          refine ⟨st, ?_, h⟩
          simp only [computeHashes, hget, hs, if_true]
        · rcases rtA f ihA (splitTokens c.equation) st h with hn | ⟨st1, toks1, heq1, hinv1⟩
          · left
            simp only [computeHashes, hget, hs, Bool.false_eq_true, if_false, hn,
              Option.bind_eq_bind, Option.none_bind]
          · have hinv2 : InvC C ⟨st1.read.set k (some (joinSpace toks1)), st1.maxh⟩ := by
              intro i hi
              have hne : i ≠ k := fun he => hk (he ▸ hi)
              show (st1.read.set k (some (joinSpace toks1))).getD i none = none
              rw [getD_set_ne _ _ _ _ _ hne]
              exact hinv1 i hi
            by_cases hmf : pyFalsy c.max_equation = true
            · right
              refine ⟨_, ?_, hinv2⟩
              simp only [computeHashes, hget, hs, Bool.false_eq_true, if_false, heq1,
                Option.bind_eq_bind, Option.some_bind, hmf, if_true]
            · rcases rtA f ihA (splitTokens (c.max_equation.getD ""))
                ⟨st1.read.set k (some (joinSpace toks1)), st1.maxh⟩ hinv2 with
                hn2 | ⟨st3, toks2, heq3, hinv3⟩
              · left
                simp only [computeHashes, hget, hs, Bool.false_eq_true, if_false, heq1,
                  Option.bind_eq_bind, Option.some_bind, hmf, if_false, hn2, Option.none_bind]
              · right
                refine ⟨⟨st3.read, st3.maxh.set k (some (joinSpace toks2))⟩, ?_, ?_⟩
                · simp only [computeHashes, hget, hs, Bool.false_eq_true, if_false, heq1,
                    Option.bind_eq_bind, Option.some_bind, hmf, if_false, heq3]
                · intro i hi
                  exact hinv3 i hi

/-! ### Termination and correctness of `compute_hashes` on acyclic read
graphs

The measure is lexicographic: the number of unassigned read hashes, then
the rank of the counter in a topological order of the read-reference
graph.  A nested call from a read equation strictly decreases the rank
with unassigned count not increasing; a nested call from a max equation
happens after the caller assigned its own read hash, so the unassigned
count strictly decreases and the rank may be arbitrary. -/

theorem refIdxAux_lt (tok : String) : ∀ (l : List CounterX) (j : Nat),
    refIdxAux tok l = some j → j < l.length := by
  intro l
  induction l with
  | nil =>
    intro j h
    cases h
  | cons c cs ih =>
    intro j h
    rw [refIdxAux] at h
    by_cases hb : (("$" ++ c.symbol_name) == tok) = true
    · rw [if_pos hb] at h
      cases h
      simp
    · rw [if_neg hb] at h
      rcases hx : refIdxAux tok cs with _ | j'
      · rw [hx] at h
        cases h
      · rw [hx] at h
        simp at h
        have := ih j' hx
        simp only [List.length_cons]
        omega

theorem refIdx_lt {s : SetX} {tok : String} {j : Nat} (h : refIdx s tok = some j) :
    j < s.counters.length := by
  unfold refIdx at h
  by_cases hd : startsDollar tok = true
  · rw [if_pos hd] at h
    exact refIdxAux_lt tok s.counters j h
  · rw [if_neg hd] at h
    cases h

theorem get?_eq_getD {α : Type} (l : List α) (i : Nat) (d : α) (h : i < l.length) :
    l.get? i = some (l.getD i d) := by
  rw [List.get?_eq_getElem?, List.getElem?_eq_getElem h, List.getD_eq_getElem?_getD,
    List.getElem?_eq_getElem h]
  rfl

/-- `a isSome → b = a`, pointwise: entries are only ever filled in, never
changed. -/
def ExtR (old new : List (Option String)) : Prop :=
  List.Forall₂ (fun a b => a.isSome = true → b = a) old new

theorem extR_refl (l : List (Option String)) : ExtR l l := by
  induction l with
  | nil => exact List.Forall₂.nil
  | cons a l ih => exact List.Forall₂.cons (fun _ => rfl) ih

theorem extR_trans {l1 l2 l3 : List (Option String)} (h12 : ExtR l1 l2) (h23 : ExtR l2 l3) :
    ExtR l1 l3 := by
  induction h12 generalizing l3 with
  | nil =>
    cases h23
    exact List.Forall₂.nil
  | cons hab h12' ih =>
    rcases h23 with _ | ⟨hbc, h23'⟩
    refine List.Forall₂.cons ?_ (ih h23')
    intro hs
    rename_i a b _ _ c _
    have hba := hab hs
    have : b.isSome = true := by rw [hba]; exact hs
    rw [hbc this, hba]

theorem extR_getD_some {l1 l2 : List (Option String)} (h : ExtR l1 l2) :
    ∀ (i : Nat) (v : String), l1.getD i none = some v → l2.getD i none = some v := by
  induction h with
  | nil =>
    intro i v hv
    simp [List.getD] at hv
  | cons hab h ih =>
    intro i v hv
    cases i with
    | zero =>
      rw [List.getD_cons_zero] at hv
      rw [List.getD_cons_zero]
      rw [hab (by rw [hv]; rfl)]
      exact hv
    | succ n =>
      rw [List.getD_cons_succ] at hv
      rw [List.getD_cons_succ]
      exact ih n v hv

theorem extR_length {l1 l2 : List (Option String)} (h : ExtR l1 l2) :
    l2.length = l1.length := h.length_eq.symm

theorem extR_set (old : List (Option String)) (i : Nat) (w : String)
    (hw : ∀ h, old.getD i none = some h → h = w) :
    ExtR old (old.set i (some w)) := by
  induction old generalizing i with
  | nil => exact List.Forall₂.nil
  | cons a l ih =>
    cases i with
    | zero =>
      refine List.Forall₂.cons ?_ (extR_refl l)
      intro hs
      rcases ha : a with _ | h
      · rw [ha] at hs
        cases hs
      · have := hw h (by rw [List.getD_cons_zero, ha])
        rw [this]
    | succ n =>
      refine List.Forall₂.cons (fun _ => rfl) ?_
      exact ih n (fun h hh => hw h (by rw [List.getD_cons_succ]; exact hh))

def uaL (l : List (Option String)) : Nat := l.countP (fun o => o.isNone)

theorem uaL_le {l1 l2 : List (Option String)} (h : ExtR l1 l2) : uaL l2 ≤ uaL l1 := by
  induction h with
  | nil => exact le_refl 0
  | cons hab h ih =>
    rename_i a b _ _
    unfold uaL at *
    rw [List.countP_cons, List.countP_cons]
    rcases ha : a with _ | v
    · have e1 : (if (none : Option String).isNone = true then 1 else 0) = 1 := rfl
      have hb1 : (if b.isNone = true then 1 else 0) ≤ 1 := by
        split
        · omega
        · omega
      rw [e1]
      omega
    · rw [ha] at hab
      rw [hab (by rfl)]
      omega

theorem uaL_lt {l1 l2 : List (Option String)} (h : ExtR l1 l2) :
    ∀ (i : Nat) (v : String), i < l1.length → l1.getD i none = none →
      l2.getD i none = some v → uaL l2 < uaL l1 := by
  induction h with
  | nil =>
    intro i v hi _ _
    simp at hi
  | cons hab h ih =>
    intro i v hi h1 h2
    rename_i a b _ _
    unfold uaL at *
    rw [List.countP_cons, List.countP_cons]
    cases i with
    | zero =>
      rw [List.getD_cons_zero] at h1 h2
      subst h1
      subst h2
      have hle := uaL_le h
      unfold uaL at hle
      have e1 : (if (none : Option String).isNone = true then 1 else 0) = 1 := rfl
      have e2 : (if (some v).isNone = true then 1 else 0) = 0 := rfl
      rw [e1, e2]
      omega
    | succ n =>
      rw [List.getD_cons_succ] at h1 h2
      have hstrict := ih n v (by simpa using hi) h1 h2
      have hb1 : (if b.isNone = true then 1 else 0) ≤ 1 := by
        split
        · omega
        · omega
      rcases ha : a with _ | w
      · have e1 : (if (none : Option String).isNone = true then 1 else 0) = 1 := rfl
        rw [e1]
        omega
      · rw [ha] at hab
        rw [hab (by rfl)]
        have e2 : (if (some w).isNone = true then 1 else 0) = 0 := rfl
        rw [e2]
        omega

def specHash (s : SetX) (rk : Nat → Nat) (i : Nat) : String :=
  (specHashF s (rk i + 1) i).getD ""

/-- The substitution the spec describes: a counter-reference token is
replaced by the referenced counter's own recursively computed read hash;
every other token is unchanged. -/
def substHash (s : SetX) (rk : Nat → Nat) (t : String) : String :=
  match refIdx s t with
  | none => t
  | some j => specHash s rk j

/-- The read-reference graph is topologically ranked by `rk`. -/
def RankOK (s : SetX) (rk : Nat → Nat) : Prop :=
  ∀ i, i < s.counters.length → ∀ j, j < s.counters.length → readRef s i j → rk j < rk i

theorem mapM_some {α β : Type} (g : α → Option β) (f : α → β) :
    ∀ (l : List α), (∀ a ∈ l, g a = some (f a)) → l.mapM g = some (l.map f) := by
  intro l
  induction l with
  | nil =>
    intro _
    rfl
  | cons a l ih =>
    intro h
    rw [List.mapM_cons, h a (List.mem_cons_self a l), ih (fun x hx => h x (List.mem_cons_of_mem a hx))]
    rfl

/-- With a rank function, `specHashF` is total and fuel-independent above
the rank. -/
theorem specHashF_spec (s : SetX) (rk : Nat → Nat) (hrk : RankOK s rk) :
    ∀ (r i f : Nat), rk i = r → i < s.counters.length → rk i + 1 ≤ f →
      specHashF s f i =
        some (joinSpace ((splitTokens (eqnOf s i)).map (substHash s rk))) := by
  intro r
  induction r using Nat.strong_induction_on with
  | _ r ih =>
    intro i f hr hi hf
    obtain ⟨f', rfl⟩ : ∃ f', f = f' + 1 := ⟨f - 1, by omega⟩
    have hget : s.counters.get? i = some (s.counters.getD i ⟨"", "", none⟩) :=
      get?_eq_getD s.counters i ⟨"", "", none⟩ hi
    simp only [specHashF, hget]
    have hmap : ((splitTokens (s.counters.getD i ⟨"", "", none⟩).equation).mapM (fun t =>
        match refIdx s t with
        | none => some t
        | some j => specHashF s f' j)) =
        some ((splitTokens (eqnOf s i)).map (substHash s rk)) := by
      refine mapM_some _ _ _ ?_
      intro t ht
      cases hr' : refIdx s t with
      | none => simp [substHash, hr']
      | some j =>
        have hj : j < s.counters.length := refIdx_lt hr'
        have hready : readRef s i j := ⟨t, ht, hr'⟩
        have hlt : rk j < rk i := hrk i hi j hj hready
        have hspec := ih (rk j) (by omega) j f' rfl hj (by omega)
        have hspec2 := ih (rk j) (by omega) j (rk j + 1) rfl hj (by omega)
        simp only [substHash, hr', hspec]
        unfold specHash
        rw [hspec2]
        rfl
    rw [hmap]
    rfl

theorem specHash_char (s : SetX) (rk : Nat → Nat) (hrk : RankOK s rk) (i : Nat)
    (hi : i < s.counters.length) :
    specHash s rk i = joinSpace ((splitTokens (eqnOf s i)).map (substHash s rk)) := by
  unfold specHash
  rw [specHashF_spec s rk hrk (rk i) i (rk i + 1) rfl hi (le_refl _)]
  rfl

/-- The memoization invariant: lengths are right and every assigned read
hash is the spec value. -/
def InvS (s : SetX) (rk : Nat → Nat) (st : HashSt) : Prop :=
  st.read.length = s.counters.length ∧
  ∀ j h, st.read.getD j none = some h → h = specHash s rk j

theorem rt_ok (s : SetX) (rk : Nat → Nat) (f : Nat) (P : Nat → Prop) (U : Nat)
    (Hcall : ∀ j st₁, P j → InvS s rk st₁ → uaL st₁.read ≤ U →
      ∃ st₂, computeHashes s f j st₁ = some st₂ ∧ InvS s rk st₂ ∧
        ExtR st₁.read st₂.read ∧ st₂.read.getD j none = some (specHash s rk j)) :
    ∀ (toks : List String) (st₀ : HashSt),
      (∀ t ∈ toks, ∀ j, refIdx s t = some j → P j) →
      InvS s rk st₀ → uaL st₀.read ≤ U →
      ∃ st', replaceTokensF (computeHashes s f) s toks st₀ =
          some (st', toks.map (substHash s rk)) ∧
        InvS s rk st' ∧ ExtR st₀.read st'.read := by
  intro toks
  induction toks with
  | nil =>
    intro st₀ _ hinv _
    exact ⟨st₀, rfl, hinv, extR_refl _⟩
  | cons t ts ih =>
    intro st₀ htoks hinv hua
    cases hr : refIdx s t with
    | none =>
      obtain ⟨st', heq, hinv', hext⟩ :=
        ih st₀ (fun u hu j hj => htoks u (List.mem_cons_of_mem t hu) j hj) hinv hua
      refine ⟨st', ?_, hinv', hext⟩
      simp only [replaceTokensF, hr, heq, List.map_cons, substHash]
      rfl
    | some j =>
      have hP := htoks t (List.mem_cons_self t ts) j hr
      obtain ⟨st₂, heq2, hinv2, hext2, hval⟩ := Hcall j st₀ hP hinv hua
      have hua2 : uaL st₂.read ≤ U := le_trans (uaL_le hext2) hua
      obtain ⟨st', heq', hinv', hext'⟩ :=
        ih st₂ (fun u hu j' hj' => htoks u (List.mem_cons_of_mem t hu) j' hj') hinv2 hua2
      refine ⟨st', ?_, hinv', extR_trans hext2 hext'⟩
      simp only [replaceTokensF, hr, heq2, Option.bind_eq_bind, Option.some_bind, heq',
        hval, List.map_cons]
      simp [substHash, hr]

theorem main_success (s : SetX) (rk : Nat → Nat) (R : Nat)
    (hrk : RankOK s rk) (hR : ∀ i, i < s.counters.length → rk i ≤ R) :
    ∀ (fuel i : Nat) (st : HashSt), i < s.counters.length → InvS s rk st →
      uaL st.read * (R + 1) + rk i + 1 ≤ fuel →
      ∃ st', computeHashes s fuel i st = some st' ∧ InvS s rk st' ∧
        ExtR st.read st'.read ∧ st'.read.getD i none = some (specHash s rk i) := by
  intro fuel
  induction fuel using Nat.strong_induction_on with
  | _ fuel IH =>
    intro i st hi hinv hfuel
    obtain ⟨f, rfl⟩ : ∃ f, fuel = f + 1 := ⟨fuel - 1, by omega⟩
    have hget : s.counters.get? i = some (s.counters.getD i ⟨"", "", none⟩) :=
      get?_eq_getD s.counters i _ hi
    cases hsome : (st.read.getD i none).isSome with
    | true =>
      obtain ⟨h, hh⟩ : ∃ h, st.read.getD i none = some h := Option.isSome_iff_exists.mp hsome
      refine ⟨st, ?_, hinv, extR_refl _, ?_⟩
      · simp only [computeHashes, hget, hsome, if_true]
      · rw [hh, hinv.2 i h hh]
    | false =>
      have hnone : st.read.getD i none = none := by
        rcases hx : st.read.getD i none with _ | h
        · rfl
        · rw [hx] at hsome
          cases hsome
      have hf0 : uaL st.read * (R + 1) + rk i ≤ f := by omega
      have Hcall_read : ∀ j st₁, (j < s.counters.length ∧ rk j < rk i) → InvS s rk st₁ →
          uaL st₁.read ≤ uaL st.read →
          ∃ st₂, computeHashes s f j st₁ = some st₂ ∧ InvS s rk st₂ ∧
            ExtR st₁.read st₂.read ∧ st₂.read.getD j none = some (specHash s rk j) := by
        rintro j st₁ ⟨hj, hlt⟩ hinv₁ hua₁
        refine IH f (by omega) j st₁ hj hinv₁ ?_
        have h1 : uaL st₁.read * (R + 1) ≤ uaL st.read * (R + 1) :=
          Nat.mul_le_mul_right _ hua₁
        omega
      have htoks_read : ∀ t ∈ splitTokens (s.counters.getD i ⟨"", "", none⟩).equation,
          ∀ j, refIdx s t = some j → j < s.counters.length ∧ rk j < rk i := by
        intro t ht j hr
        have hj := refIdx_lt hr
        exact ⟨hj, hrk i hi j hj ⟨t, ht, hr⟩⟩
      obtain ⟨st1, heq1, hinv1, hext1⟩ := rt_ok s rk f
        (fun j => j < s.counters.length ∧ rk j < rk i) (uaL st.read) Hcall_read
        (splitTokens (s.counters.getD i ⟨"", "", none⟩).equation) st htoks_read hinv
        (le_refl _)
      have hchar : specHash s rk i =
          joinSpace ((splitTokens (s.counters.getD i ⟨"", "", none⟩).equation).map
            (substHash s rk)) := specHash_char s rk hrk i hi
      have hlen1 : st1.read.length = s.counters.length := hinv1.1
      have hilen1 : i < st1.read.length := by rw [hlen1]; exact hi
      have hext_set : ExtR st1.read (st1.read.set i (some (joinSpace
          ((splitTokens (s.counters.getD i ⟨"", "", none⟩).equation).map
            (substHash s rk))))) :=
        extR_set _ i _ (fun h hh => by rw [hinv1.2 i h hh, hchar])
      have hinv2 : InvS s rk ⟨st1.read.set i (some (joinSpace
          ((splitTokens (s.counters.getD i ⟨"", "", none⟩).equation).map
            (substHash s rk)))), st1.maxh⟩ := by
        constructor
        · simp only [List.length_set]
          exact hlen1
        · intro j h hh
          by_cases hji : j = i
          · subst hji
            rw [getD_set_self _ _ _ _ hilen1] at hh
            cases hh
            exact hchar.symm
          · rw [getD_set_ne _ _ _ _ _ hji] at hh
            exact hinv1.2 j h hh
      have hgot2 : (st1.read.set i (some (joinSpace
          ((splitTokens (s.counters.getD i ⟨"", "", none⟩).equation).map
            (substHash s rk))))).getD i none = some (joinSpace
          ((splitTokens (s.counters.getD i ⟨"", "", none⟩).equation).map
            (substHash s rk))) :=
        getD_set_self _ _ _ _ hilen1
      have hext2 : ExtR st.read (st1.read.set i (some (joinSpace
          ((splitTokens (s.counters.getD i ⟨"", "", none⟩).equation).map
            (substHash s rk))))) := extR_trans hext1 hext_set
      have hua2 : uaL (st1.read.set i (some (joinSpace
          ((splitTokens (s.counters.getD i ⟨"", "", none⟩).equation).map
            (substHash s rk))))) < uaL st.read := by
        refine uaL_lt hext2 i _ ?_ hnone hgot2
        rw [hinv.1]
        exact hi
      cases hmf : pyFalsy (s.counters.getD i ⟨"", "", none⟩).max_equation with
      | true =>
        refine ⟨_, ?_, hinv2, hext2, ?_⟩
        · simp only [computeHashes, hget, hsome, Bool.false_eq_true, if_false, heq1,
            Option.bind_eq_bind, Option.some_bind, hmf, if_true]
        · rw [hgot2, hchar]
      | false =>
        have Hcall_max : ∀ j st₁, j < s.counters.length → InvS s rk st₁ →
            uaL st₁.read ≤ uaL (st1.read.set i (some (joinSpace
              ((splitTokens (s.counters.getD i ⟨"", "", none⟩).equation).map
                (substHash s rk))))) →
            ∃ st₂, computeHashes s f j st₁ = some st₂ ∧ InvS s rk st₂ ∧
              ExtR st₁.read st₂.read ∧ st₂.read.getD j none = some (specHash s rk j) := by
          intro j st₁ hj hinv₁ hua₁
          refine IH f (by omega) j st₁ hj hinv₁ ?_
          have h1 : uaL st₁.read + 1 ≤ uaL st.read := by omega
          have h2 : (uaL st₁.read + 1) * (R + 1) ≤ uaL st.read * (R + 1) :=
            Nat.mul_le_mul_right _ h1
          have h3 : (uaL st₁.read + 1) * (R + 1) = uaL st₁.read * (R + 1) + (R + 1) := by
            ring
          have h4 : rk j ≤ R := hR j hj
          omega
        have htoks_max : ∀ t ∈ splitTokens
            ((s.counters.getD i ⟨"", "", none⟩).max_equation.getD ""),
            ∀ j, refIdx s t = some j → j < s.counters.length :=
          fun t _ j hr => refIdx_lt hr
        obtain ⟨st3, heq3, hinv3, hext3⟩ := rt_ok s rk f
          (fun j => j < s.counters.length) _ Hcall_max
          (splitTokens ((s.counters.getD i ⟨"", "", none⟩).max_equation.getD ""))
          ⟨st1.read.set i (some (joinSpace
            ((splitTokens (s.counters.getD i ⟨"", "", none⟩).equation).map
              (substHash s rk)))), st1.maxh⟩ htoks_max hinv2 (le_refl _)
        refine ⟨⟨st3.read, st3.maxh.set i (some (joinSpace
          ((splitTokens ((s.counters.getD i ⟨"", "", none⟩).max_equation.getD "")).map
            (substHash s rk))))⟩, ?_, ?_, ?_, ?_⟩
        · simp only [computeHashes, hget, hsome, Bool.false_eq_true, if_false, heq1,
            Option.bind_eq_bind, Option.some_bind, hmf, heq3]
        · exact ⟨hinv3.1, hinv3.2⟩
        · exact extR_trans hext2 hext3
        · exact (by rw [extR_getD_some hext3 i _ hgot2, hchar] :
            st3.read.getD i none = some (specHash s rk i))

theorem getD_replicate_none : ∀ (n j : Nat),
    (List.replicate n (none : Option String)).getD j none = none := by
  intro n
  induction n with
  | zero =>
    intro j
    rfl
  | succ m ih =>
    intro j
    cases j with
    | zero => rfl
    | succ k =>
      rw [List.replicate_succ, List.getD_cons_succ]
      exact ih k

theorem initSt_InvS (s : SetX) (rk : Nat → Nat) : InvS s rk (initSt s) := by
  constructor
  · exact List.length_replicate _ _
  · intro j h hh
    simp only [initSt] at hh
    rw [getD_replicate_none] at hh
    cases hh

theorem fold_success (s : SetX) (rk : Nat → Nat) (R : Nat)
    (hrk : RankOK s rk) (hR : ∀ i, i < s.counters.length → rk i ≤ R)
    (fuel : Nat) (hfuel : s.counters.length * (R + 1) + R + 1 ≤ fuel) :
    ∀ (idxs : List Nat), (∀ i ∈ idxs, i < s.counters.length) →
    ∀ st₀, InvS s rk st₀ →
      ∃ st', idxs.foldlM (fun st i => computeHashes s fuel i st) st₀ = some st' ∧
        InvS s rk st' ∧ ExtR st₀.read st'.read ∧
        ∀ i ∈ idxs, st'.read.getD i none = some (specHash s rk i) := by
  intro idxs
  induction idxs with
  | nil =>
    intro _ st₀ hinv
    exact ⟨st₀, rfl, hinv, extR_refl _, fun i hi => absurd hi (List.not_mem_nil i)⟩
  | cons i is ih =>
    intro hmem st₀ hinv
    have hi : i < s.counters.length := hmem i (List.mem_cons_self i is)
    have hbound : uaL st₀.read * (R + 1) + rk i + 1 ≤ fuel := by
      have h1 : uaL st₀.read ≤ s.counters.length := by
        have := List.countP_le_length (fun o => o.isNone) (l := st₀.read)
        rw [hinv.1] at this
        exact this
      have h2 : uaL st₀.read * (R + 1) ≤ s.counters.length * (R + 1) :=
        Nat.mul_le_mul_right _ h1
      have h3 : rk i ≤ R := hR i hi
      omega
    obtain ⟨st₁, heq1, hinv1, hext1, hval1⟩ :=
      main_success s rk R hrk hR fuel i st₀ hi hinv hbound
    obtain ⟨st', heq', hinv', hext', hvals⟩ :=
      ih (fun u hu => hmem u (List.mem_cons_of_mem i hu)) st₁ hinv1
    refine ⟨st', ?_, hinv', extR_trans hext1 hext', ?_⟩
    · rw [List.foldlM_cons, heq1]
      exact heq'
    · intro u hu
      rcases List.mem_cons.mp hu with heq | hmem'
      · subst heq
        exact extR_getD_some hext' u _ hval1
      · exact hvals u hmem'

instance (s : SetX) (i j : Nat) : Decidable (readRef s i j) := by
  unfold readRef
  infer_instance

instance (s : SetX) (rk : Nat → Nat) : Decidable (RankOK s rk) := by
  unfold RankOK
  infer_instance

/-- C2: For every counter of a Set whose read-reference graph is acyclic
(witnessed by a topological rank), after running `compute_hashes` for all
counters the stored `read_hash` equals the read equation's token sequence
with every counter-reference token replaced by the referenced counter's
own recursively computed read hash and all other tokens unchanged, joined
by single spaces; consequently two counters whose token sequences agree
after this substitution have equal stored read hashes. -/
theorem c2_read_hash_substitution (s : SetX) (rk : Nat → Nat) (R : Nat)
    (hrk : RankOK s rk) (hR : ∀ i, i < s.counters.length → rk i ≤ R)
    (fuel : Nat) (hfuel : s.counters.length * (R + 1) + R + 1 ≤ fuel) :
    ∃ st', computeAllHashes s fuel = some st' ∧
      (∀ i, i < s.counters.length →
        st'.read.getD i none =
          some (joinSpace ((splitTokens (eqnOf s i)).map (substHash s rk)))) ∧
      (∀ i j, i < s.counters.length → j < s.counters.length →
        (splitTokens (eqnOf s i)).map (substHash s rk) =
          (splitTokens (eqnOf s j)).map (substHash s rk) →
        st'.read.getD i none = st'.read.getD j none) := by
  obtain ⟨st', heq, _, _, hvals⟩ :=
    fold_success s rk R hrk hR fuel hfuel (List.range s.counters.length)
      (fun i hi => List.mem_range.mp hi) (initSt s) (initSt_InvS s rk)
  refine ⟨st', heq, ?_, ?_⟩
  · intro i hi
    rw [hvals i (List.mem_range.mpr hi), specHash_char s rk hrk i hi]
  · intro i j hi hj hmapeq
    rw [hvals i (List.mem_range.mpr hi), hvals j (List.mem_range.mpr hj),
      specHash_char s rk hrk i hi, specHash_char s rk hrk j hj, hmapeq]

theorem c2_read_hash_substitution_witness :
    ∃ st', computeAllHashes ⟨[⟨"A", "$B 2 UADD", none⟩, ⟨"B", "3 4 UADD", none⟩]⟩ 6 =
        some st' ∧
      st'.read.getD 0 none = some "3 4 UADD 2 UADD" ∧
      st'.read.getD 1 none = some "3 4 UADD" := by
  obtain ⟨st', heq, hvals, _⟩ :=
    c2_read_hash_substitution ⟨[⟨"A", "$B 2 UADD", none⟩, ⟨"B", "3 4 UADD", none⟩]⟩
      (fun u => 1 - u) 1 (by decide) (by decide) 6 (by decide)
  refine ⟨st', heq, ?_, ?_⟩
  · rw [hvals 0 (by decide)]
    rfl
  · rw [hvals 1 (by decide)]
    rfl

/-- C4: If the read-reference graph is acyclic (witnessed by a topological
rank bounded by `R`), `compute_hashes` terminates for every counter of the
Set given fuel `n * (R + 1) + R + 1`; if a nonempty subset `C` of counters
is closed under read references (every member's equation has a token
resolving to a member of `C`), `compute_hashes` on any member exhausts
every amount of fuel: the recursion is unbounded. -/
theorem c4_compute_hashes_termination :
    (∀ (s : SetX) (rk : Nat → Nat) (R : Nat), RankOK s rk →
        (∀ i, i < s.counters.length → rk i ≤ R) →
        ∀ fuel, s.counters.length * (R + 1) + R + 1 ≤ fuel →
        ∀ i, i < s.counters.length →
          ∃ st', computeHashes s fuel i (initSt s) = some st') ∧
    (∀ (s : SetX) (C : List Nat),
        (∀ i ∈ C, i < s.counters.length) →
        (∀ i ∈ C, ∃ t ∈ splitTokens (eqnOf s i), ∃ j ∈ C, refIdx s t = some j) →
        ∀ i ∈ C, ∀ fuel, computeHashes s fuel i (initSt s) = none) := by
  constructor
  · intro s rk R hrk hR fuel hfuel i hi
    have hbound : uaL (initSt s).read * (R + 1) + rk i + 1 ≤ fuel := by
      have h1 : uaL (initSt s).read ≤ s.counters.length := by
        have := List.countP_le_length (fun o => o.isNone) (l := (initSt s).read)
        rw [(initSt_InvS s rk).1] at this
        exact this
      have h2 : uaL (initSt s).read * (R + 1) ≤ s.counters.length * (R + 1) :=
        Nat.mul_le_mul_right _ h1
      have h3 : rk i ≤ R := hR i hi
      omega
    obtain ⟨st', heq, _, _, _⟩ :=
      main_success s rk R hrk hR fuel i (initSt s) hi (initSt_InvS s rk) hbound
    exact ⟨st', heq⟩
  · intro s C hCn hadj i hiC fuel
    have hinvc : InvC C (initSt s) := by
      intro j _
      exact getD_replicate_none _ _
    exact (cycle_step_dichotomy hCn hadj fuel).2 i hiC (initSt s) hinvc

theorem c4_compute_hashes_termination_witness :
    (∃ st', computeHashes ⟨[⟨"A", "$B 2 UADD", none⟩, ⟨"B", "3 4 UADD", none⟩]⟩ 6 0
        (initSt ⟨[⟨"A", "$B 2 UADD", none⟩, ⟨"B", "3 4 UADD", none⟩]⟩) = some st') ∧
    computeHashes ⟨[⟨"A", "$A", none⟩]⟩ 9 0 (initSt ⟨[⟨"A", "$A", none⟩]⟩) = none := by
  constructor
  · exact c4_compute_hashes_termination.1
      ⟨[⟨"A", "$B 2 UADD", none⟩, ⟨"B", "3 4 UADD", none⟩]⟩
      (fun u => 1 - u) 1 (by decide) (by decide) 6 (by decide) 0 (by decide)
  · exact c4_compute_hashes_termination.2 ⟨[⟨"A", "$A", none⟩]⟩ [0]
      (by decide) (by decide) 0 (by decide) 9
